import Mathlib

/-!
Verification of the chunk-name model, restore/patch-chain logic, rewrite
pipeline and provenance metadata of the mhws-tex-decompressor repository
(src/chunk.rs, src/app.rs, src/metadata.rs).

Strings are modelled as lists of characters (`Str`); Rust `u32` values are
modelled as `Nat` with the explicit bound `u32Max` where the source performs
checked parsing.  Fallible Rust functions returning `Result` are modelled
with `Except`; a reachable `Option::unwrap` panic is modelled by `Option`
with `none` as the panic outcome.
-/

/-- Rust `&str` modelled as a list of characters. -/
abbrev Str := List Char

/-- The separator used by `ChunkName::try_from_str` (`name.split('.')`). -/
def dotChar : Char := '.'

/-- `u32::MAX`: Rust's `str::parse::<u32>` fails above this bound. -/
def u32Max : Nat := 4294967295

/-- ASCII decimal digit test, as used by Rust's `u32::from_str`. -/
def isDigitCh (c : Char) : Bool := 48 ≤ c.toNat && c.toNat ≤ 57

/-- Numeric value of an ASCII digit character. -/
def digitVal (c : Char) : Nat := c.toNat - 48

/-- The ASCII digit character for a value below 10 (used by `{:03}` display
formatting of numeric ids). -/
def digitOfNat (n : Nat) : Char :=
  match n with
  | 0 => '0' | 1 => '1' | 2 => '2' | 3 => '3' | 4 => '4'
  | 5 => '5' | 6 => '6' | 7 => '7' | 8 => '8' | _ => '9'

/-- Fuel-driven digit accumulator; with fuel above `n` it produces the
decimal digits of `n` in front of `acc`. -/
def natToDigitsAux : Nat → Nat → Str → Str
  | 0, _, acc => acc
  | fuel + 1, n, acc =>
    if n < 10 then digitOfNat n :: acc
    else natToDigitsAux fuel (n / 10) (digitOfNat (n % 10) :: acc)

/-- Decimal digits of `n`, most significant first (the digit string produced
by Rust's integer `Display`). -/
def natToDigits (n : Nat) : Str := natToDigitsAux (n + 1) n []

/-- Zero-pad a digit string to width 3, as Rust's `{:03}` format spec does. -/
def pad3 (s : Str) : Str := List.replicate (3 - s.length) '0' ++ s

/-- Accumulating decimal scan of a digit string; `none` on a non-digit. -/
def parseDigitsAux : Str → Nat → Option Nat
  | [], acc => some acc
  | c :: rest, acc =>
    if isDigitCh c then parseDigitsAux rest (acc * 10 + digitVal c) else none

/-- Decimal value of a non-empty all-digit string. -/
def parseDigits (s : Str) : Option Nat :=
  match s with
  | [] => none
  | _ => parseDigitsAux s 0

/-- Rust `str::parse::<u32>`: an optional leading sign `+`, then one or more
decimal digits; fails on overflow past `u32::MAX`. -/
def parseU32 (s : Str) : Option Nat :=
  match parseDigits (if s.head? = some '+' then s.tail else s) with
  | some v => if v ≤ u32Max then some v else none
  | none => none

/-- Accumulator-based splitter behind `splitOn` (Rust `str::split`). -/
def splitOnAux (sep : Char) : Str → Str → List Str
  | [], acc => [acc.reverse]
  | c :: rest, acc =>
    if c = sep then acc.reverse :: splitOnAux sep rest []
    else splitOnAux sep rest (c :: acc)

/-- Rust `str::split(sep)` collected to a list (`"".split` gives `[""]`). -/
def splitOn (sep : Char) (s : Str) : List Str := splitOnAux sep s []

/-- Join a token list with `'.'` separators (the shape of the `Display`
output of a `ChunkName`). -/
def joinDots : List Str → Str
  | [] => []
  | [t] => t
  | t :: ts => t ++ dotChar :: joinDots ts

/-- Rust `slice::chunks_exact(2)` collected to pairs (the trailing element of
an odd-length list is dropped, exactly as `chunks_exact` drops remainders). -/
def pairUp {α : Type} : List α → List (α × α)
  | [] => []
  | [_] => []
  | a :: b :: rest => (a, b) :: pairUp rest

/-- The `"re_chunk_"` prefix of base components. -/
def chunkPfx : Str := ['r', 'e', '_', 'c', 'h', 'u', 'n', 'k', '_']

/-- The `"re_dlc_"` prefix of DLC components. -/
def dlcPfx : Str := ['r', 'e', '_', 'd', 'l', 'c', '_']

/-- The `"patch_"` prefix of patch components. -/
def patchPfx : Str := ['p', 'a', 't', 'c', 'h', '_']

/-- The `"sub_"` prefix of sub components. -/
def subPfx : Str := ['s', 'u', 'b', '_']

/-- The fixed container extension token `"pak"`. -/
def pakStr : Str := ['p', 'a', 'k']

/-- `ChunkComponent` from src/chunk.rs. -/
inductive ChunkComponent : Type where
  | base (id : Nat)
  | dlc (id : Str)
  | patch (id : Nat)
  | sub (id : Nat)
  | subPatch (id : Nat)
deriving DecidableEq, Repr

/-- `ChunkName` from src/chunk.rs: an ordered component sequence. -/
structure ChunkName : Type where
  components : List ChunkComponent
deriving DecidableEq, Repr

/-- The private `Component` enum of src/chunk.rs returned by
`parse_component` (before `Patch`/`SubPatch` reclassification). -/
inductive RawComponent : Type where
  | major (id : Nat)
  | dlc (id : Str)
  | patch (id : Nat)
  | sub (id : Nat)
deriving DecidableEq, Repr

/-- The error classes of `ChunkName::try_from_str` / `parse_component`
(the source uses `eyre` messages; the three message families are modelled as
three constructors). -/
inductive ParseErr : Type where
  | invalidFormat
  | invalidComponent
  | invalidNumericId
deriving DecidableEq, Repr

deriving instance DecidableEq for Except

namespace ChunkName

/-- `ChunkName::parse_component` from src/chunk.rs. -/
def parse_component (name : Str) : Except ParseErr RawComponent :=
  if chunkPfx.isPrefixOf name then
    match parseU32 (name.drop chunkPfx.length) with
    | some id => .ok (.major id)
    | none => .error .invalidNumericId
  else if dlcPfx.isPrefixOf name then
    .ok (.dlc (name.drop dlcPfx.length))
  else if patchPfx.isPrefixOf name then
    match parseU32 (name.drop patchPfx.length) with
    | some id => .ok (.patch id)
    | none => .error .invalidNumericId
  else if subPfx.isPrefixOf name then
    match parseU32 (name.drop subPfx.length) with
    | some id => .ok (.sub id)
    | none => .error .invalidNumericId
  else
    .error .invalidComponent

/-- The component-collection loop of `try_from_str` (the `for` loop with its
`has_sub` flag, which reclassifies a `Patch` token as `SubPatch` when a `Sub`
token occurred earlier). -/
def componentsLoop : List Str → Bool → Except ParseErr (List ChunkComponent)
  | [], _ => .ok []
  | pn :: rest, hasSub =>
    match parse_component pn with
    | .error e => .error e
    | .ok (.major id) => (componentsLoop rest hasSub).map (ChunkComponent.base id :: ·)
    | .ok (.dlc id) => (componentsLoop rest hasSub).map (ChunkComponent.dlc id :: ·)
    | .ok (.sub id) => (componentsLoop rest true).map (ChunkComponent.sub id :: ·)
    | .ok (.patch id) =>
      (componentsLoop rest hasSub).map
        ((if hasSub then ChunkComponent.subPatch id else ChunkComponent.patch id) :: ·)

/-- `ChunkName::try_from_str` from src/chunk.rs. -/
def try_from_str (name : Str) : Except ParseErr ChunkName :=
  let dotParts := splitOn dotChar name
  if dotParts.length < 2 ∨ dotParts.length % 2 ≠ 0 then
    .error .invalidFormat
  else
    let partPairs := pairUp dotParts
    if ¬ (partPairs.all fun p => p.2 = pakStr) then
      .error .invalidFormat
    else
      (componentsLoop (partPairs.map Prod.fst) false).map fun comps => ⟨comps⟩

/-- `ChunkName::major_id`: first `Base` component's id, if any. -/
def major_id (n : ChunkName) : Option Nat :=
  n.components.findSome? fun c =>
    match c with
    | .base id => some id
    | _ => none

/-- `ChunkName::patch_id`: first `Patch` component's id, if any. -/
def patch_id (n : ChunkName) : Option Nat :=
  n.components.findSome? fun c =>
    match c with
    | .patch id => some id
    | _ => none

/-- `ChunkName::sub_id`: first `Sub` component's id, if any. -/
def sub_id (n : ChunkName) : Option Nat :=
  n.components.findSome? fun c =>
    match c with
    | .sub id => some id
    | _ => none

/-- `ChunkName::sub_patch_id`: first `SubPatch` component's id, if any. -/
def sub_patch_id (n : ChunkName) : Option Nat :=
  n.components.findSome? fun c =>
    match c with
    | .subPatch id => some id
    | _ => none

/-- `ChunkName::with_sub_patch`: append a `SubPatch` component. -/
def with_sub_patch (n : ChunkName) (id : Nat) : ChunkName :=
  ⟨n.components ++ [.subPatch id]⟩

end ChunkName

/-- The head text of one component in the `Display` impl of `ChunkName`
(everything before its `.pak` extension). -/
def headStr : ChunkComponent → Str
  | .base id => chunkPfx ++ pad3 (natToDigits id)
  | .dlc id => dlcPfx ++ id
  | .patch id => patchPfx ++ pad3 (natToDigits id)
  | .sub id => subPfx ++ pad3 (natToDigits id)
  | .subPatch id => patchPfx ++ pad3 (natToDigits id)

/-- The full rendering of one component in the `Display` impl: the head text,
a dot, and the `pak` extension. -/
def renderComp (c : ChunkComponent) : Str := headStr c ++ dotChar :: pakStr

/-- The `Display` impl of `ChunkName`: components rendered in order,
separated by dots. -/
def ChunkName.render (n : ChunkName) : Str := joinDots (n.components.map renderComp)


/-! ### Decimal digit round-trip lemmas -/

theorem isDigitCh_digitOfNat (m : Nat) : isDigitCh (digitOfNat m) = true := by
  rcases m with _|_|_|_|_|_|_|_|_|m <;> rfl

theorem digitVal_digitOfNat {m : Nat} (h : m < 10) : digitVal (digitOfNat m) = m := by
  interval_cases m <;> rfl

theorem isDigitCh_ne_plus {c : Char} (h : isDigitCh c = true) : c ≠ '+' := by
  intro he
  subst he
  exact absurd h (by decide)

theorem isDigitCh_ne_dot {c : Char} (h : isDigitCh c = true) : c ≠ dotChar := by
  intro he
  subst he
  exact absurd h (by decide)

theorem natToDigitsAux_acc (fuel : Nat) :
    ∀ (n : Nat) (acc : Str),
      natToDigitsAux fuel n acc = natToDigitsAux fuel n [] ++ acc := by
  induction fuel with
  | zero => intro n acc; simp [natToDigitsAux]
  | succ fuel ih =>
    intro n acc
    simp only [natToDigitsAux]
    by_cases h : n < 10
    · simp [h]
    · simp only [if_neg h]
      rw [ih (n / 10) (digitOfNat (n % 10) :: acc),
        ih (n / 10) [digitOfNat (n % 10)]]
      simp

theorem natToDigitsAux_extra :
    ∀ (n fuel₁ fuel₂ : Nat) (acc : Str), n < fuel₁ → n < fuel₂ →
      natToDigitsAux fuel₁ n acc = natToDigitsAux fuel₂ n acc := by
  intro n
  induction n using Nat.strong_induction_on with
  | _ n ih =>
    intro fuel₁ fuel₂ acc h₁ h₂
    match fuel₁, fuel₂ with
    | f₁ + 1, f₂ + 1 =>
      simp only [natToDigitsAux]
      by_cases h : n < 10
      · simp [h]
      · simp only [if_neg h]
        exact ih (n / 10) (by omega) f₁ f₂ _ (by omega) (by omega)

theorem natToDigits_eq (n : Nat) :
    natToDigits n =
      if n < 10 then [digitOfNat n]
      else natToDigits (n / 10) ++ [digitOfNat (n % 10)] := by
  by_cases h : n < 10
  · simp [natToDigits, natToDigitsAux, h]
  · simp only [if_neg h]
    show natToDigitsAux (n + 1) n [] = _
    simp only [natToDigitsAux, if_neg h]
    rw [natToDigitsAux_acc]
    rw [natToDigitsAux_extra (n / 10) n (n / 10 + 1) [] (by omega) (by omega)]
    rfl

theorem natToDigits_ne_nil (n : Nat) : natToDigits n ≠ [] := by
  rw [natToDigits_eq]
  by_cases h : n < 10 <;> simp [h]

theorem mem_natToDigits_isDigit (n : Nat) :
    ∀ c ∈ natToDigits n, isDigitCh c = true := by
  induction n using Nat.strong_induction_on with
  | _ n ih =>
    rw [natToDigits_eq]
    by_cases h : n < 10
    · simp [h, isDigitCh_digitOfNat]
    · simp only [if_neg h, List.mem_append, List.mem_singleton]
      rintro c (hc | rfl)
      · exact ih (n / 10) (by omega) c hc
      · exact isDigitCh_digitOfNat _

theorem parseDigitsAux_append (xs ys : Str) (acc : Nat) :
    parseDigitsAux (xs ++ ys) acc =
      match parseDigitsAux xs acc with
      | some a => parseDigitsAux ys a
      | none => none := by
  induction xs generalizing acc with
  | nil => simp [parseDigitsAux]
  | cons c xs ih =>
    simp only [List.cons_append, parseDigitsAux]
    by_cases h : isDigitCh c = true
    · simp only [if_pos h]
      exact ih _
    · simp [h]

theorem parseDigitsAux_natToDigits (n : Nat) :
    ∀ acc : Nat,
      parseDigitsAux (natToDigits n) acc =
        some (acc * 10 ^ (natToDigits n).length + n) := by
  induction n using Nat.strong_induction_on with
  | _ n ih =>
    intro acc
    rw [natToDigits_eq]
    by_cases h : n < 10
    · simp [h, parseDigitsAux, isDigitCh_digitOfNat, digitVal_digitOfNat h]
    · simp only [if_neg h, parseDigitsAux_append, ih (n / 10) (by omega) acc]
      simp only [parseDigitsAux, isDigitCh_digitOfNat, if_pos,
        digitVal_digitOfNat (Nat.mod_lt n (show 0 < 10 by omega))]
      have hlen : (natToDigits (n / 10) ++ [digitOfNat (n % 10)]).length =
          (natToDigits (n / 10)).length + 1 := by simp
      rw [hlen]
      congr 1
      have hpow : 10 ^ ((natToDigits (n / 10)).length + 1) =
          10 ^ (natToDigits (n / 10)).length * 10 := by ring
      rw [hpow]
      have hsplit : (acc * 10 ^ (natToDigits (n / 10)).length + n / 10) * 10 + n % 10 =
          acc * (10 ^ (natToDigits (n / 10)).length * 10) + (n / 10 * 10 + n % 10) := by
        ring
      rw [hsplit]
      congr 1
      omega

theorem parseDigits_natToDigits (n : Nat) : parseDigits (natToDigits n) = some n := by
  have hne := natToDigits_ne_nil n
  unfold parseDigits
  match hd : natToDigits n with
  | [] => exact absurd hd hne
  | c :: rest =>
    rw [← hd, parseDigitsAux_natToDigits n 0]
    simp

theorem parseDigitsAux_replicate_zero (k : Nat) (s : Str) :
    ∀ acc : Nat, parseDigitsAux (List.replicate k '0' ++ s) acc =
      parseDigitsAux s (acc * 10 ^ k) := by
  induction k with
  | zero => intro acc; simp
  | succ k ih =>
    intro acc
    simp only [List.replicate_succ, List.cons_append, parseDigitsAux]
    rw [if_pos (by decide)]
    show parseDigitsAux (List.replicate k '0' ++ s) (acc * 10 + digitVal '0') =
      parseDigitsAux s (acc * 10 ^ (k + 1))
    rw [ih (acc * 10 + digitVal '0')]
    congr 1
    have hv : digitVal '0' = 0 := by decide
    rw [hv]
    ring

theorem mem_pad3_isDigit {s : Str} (hs : ∀ c ∈ s, isDigitCh c = true) :
    ∀ c ∈ pad3 s, isDigitCh c = true := by
  intro c hc
  rcases List.mem_append.mp hc with hc | hc
  · have : c = '0' := List.eq_of_mem_replicate hc
    subst this
    decide
  · exact hs c hc

theorem pad3_ne_nil {s : Str} (hs : s ≠ []) : pad3 s ≠ [] := by
  unfold pad3
  intro hcon
  rcases List.append_eq_nil.mp hcon with ⟨_, h2⟩
  exact hs h2

theorem parseDigits_of_ne_nil {s : Str} (h : s ≠ []) :
    parseDigits s = parseDigitsAux s 0 := by
  match s with
  | [] => exact absurd rfl h
  | c :: rest => rfl

theorem parseDigits_pad3_natToDigits (n : Nat) :
    parseDigits (pad3 (natToDigits n)) = some n := by
  rw [parseDigits_of_ne_nil (pad3_ne_nil (natToDigits_ne_nil n))]
  unfold pad3
  rw [parseDigitsAux_replicate_zero]
  rw [parseDigitsAux_natToDigits n]
  simp

theorem head_pad3_not_plus (n : Nat) :
    (pad3 (natToDigits n)).head? ≠ some '+' := by
  intro hcon
  cases hl : pad3 (natToDigits n) with
  | nil =>
    rw [hl] at hcon
    simp at hcon
  | cons c rest =>
    rw [hl] at hcon
    simp only [List.head?_cons, Option.some.injEq] at hcon
    have hd := mem_pad3_isDigit (mem_natToDigits_isDigit n) c
      (by rw [hl]; exact List.mem_cons_self c rest)
    rw [hcon] at hd
    exact absurd hd (by decide)

theorem parseU32_pad3_natToDigits {n : Nat} (h : n ≤ u32Max) :
    parseU32 (pad3 (natToDigits n)) = some n := by
  unfold parseU32
  rw [if_neg (head_pad3_not_plus n)]
  rw [parseDigits_pad3_natToDigits n]
  simp [h]

theorem parseU32_le_u32Max {s : Str} {v : Nat} (h : parseU32 s = some v) :
    v ≤ u32Max := by
  unfold parseU32 at h
  rcases hpd : parseDigits (if s.head? = some '+' then s.tail else s) with _ | w
  · rw [hpd] at h
    simp at h
  · rw [hpd] at h
    simp only at h
    by_cases hb : w ≤ u32Max
    · rw [if_pos hb] at h
      simp only [Option.some.injEq] at h
      omega
    · rw [if_neg hb] at h
      simp at h

/-! ### Splitting and joining lemmas -/

theorem splitOnAux_ne_nil (sep : Char) : ∀ (s acc : Str), splitOnAux sep s acc ≠ [] := by
  intro s
  induction s with
  | nil => intro acc; simp [splitOnAux]
  | cons c rest ih =>
    intro acc
    simp only [splitOnAux]
    by_cases h : c = sep
    · simp [h]
    · simp only [if_neg h]
      exact ih _

theorem splitOn_ne_nil (sep : Char) (s : Str) : splitOn sep s ≠ [] :=
  splitOnAux_ne_nil sep s []

theorem mem_splitOnAux_not_sep (sep : Char) :
    ∀ (s acc t : Str), (∀ c ∈ acc, c ≠ sep) → t ∈ splitOnAux sep s acc → sep ∉ t := by
  intro s
  induction s with
  | nil =>
    intro acc t hacc ht
    simp only [splitOnAux, List.mem_singleton] at ht
    subst ht
    intro hmem
    exact hacc sep (List.mem_reverse.mp hmem) rfl
  | cons c rest ih =>
    intro acc t hacc ht
    simp only [splitOnAux] at ht
    by_cases h : c = sep
    · rw [if_pos h] at ht
      rcases List.mem_cons.mp ht with ht | ht
      · subst ht
        intro hmem
        exact hacc sep (List.mem_reverse.mp hmem) rfl
      · exact ih [] t (by simp) ht
    · rw [if_neg h] at ht
      refine ih (c :: acc) t ?_ ht
      intro d hd
      rcases List.mem_cons.mp hd with hd | hd
      · subst hd
        exact h
      · exact hacc d hd

theorem mem_splitOn_not_sep {sep : Char} {s t : Str} (h : t ∈ splitOn sep s) :
    sep ∉ t :=
  mem_splitOnAux_not_sep sep s [] t (by simp) h

theorem splitOnAux_append_no_sep {sep : Char} :
    ∀ (t s acc : Str), sep ∉ t →
      splitOnAux sep (t ++ s) acc = splitOnAux sep s (t.reverse ++ acc) := by
  intro t
  induction t with
  | nil => intro s acc _; simp
  | cons c t ih =>
    intro s acc hmem
    have hcs : c ≠ sep := fun hcon => hmem (hcon ▸ List.mem_cons_self c t)
    show splitOnAux sep (c :: (t ++ s)) acc = _
    simp only [splitOnAux, if_neg hcs]
    show splitOnAux sep (t ++ s) (c :: acc) = _
    rw [ih s (c :: acc) (fun hcon => hmem (List.mem_cons_of_mem c hcon))]
    congr 1
    simp

theorem splitOn_joinDots :
    ∀ tokens : List Str, tokens ≠ [] → (∀ t ∈ tokens, dotChar ∉ t) →
      splitOn dotChar (joinDots tokens) = tokens := by
  intro tokens
  induction tokens with
  | nil => intro h _; exact absurd rfl h
  | cons t ts ih =>
    intro _ hno
    rcases ts with _ | ⟨t2, ts'⟩
    · show splitOnAux dotChar t [] = [t]
      have hsp : splitOnAux dotChar (t ++ []) [] = splitOnAux dotChar [] (t.reverse ++ []) :=
        splitOnAux_append_no_sep t [] [] (hno t (List.mem_cons_self _ _))

      rw [List.append_nil] at hsp
      rw [hsp]
      simp [splitOnAux]
    · show splitOnAux dotChar (t ++ dotChar :: joinDots (t2 :: ts')) [] = t :: t2 :: ts'
      rw [splitOnAux_append_no_sep t _ [] (hno t (List.mem_cons_self _ _))]
      simp only [splitOnAux]
      simp only [if_true, eq_self_iff_true, List.append_nil, List.reverse_reverse]
      show t :: splitOn dotChar (joinDots (t2 :: ts')) = _
      rw [ih (by simp) (fun u hu => hno u (List.mem_cons_of_mem t hu))]

/-! ### Tokens of the rendered form of a name -/

/-- The token list underlying the `Display` output: each component
contributes its head text and the `pak` extension token. -/
def fmtTokens (cs : List ChunkComponent) : List Str :=
  (cs.map (fun c => [headStr c, pakStr])).flatten

theorem fmtTokens_ne_nil {cs : List ChunkComponent} (h : cs ≠ []) :
    fmtTokens cs ≠ [] := by
  match cs with
  | [] => exact absurd rfl h
  | c :: cs' => simp [fmtTokens]

theorem joinDots_append :
    ∀ xs ys : List Str, xs ≠ [] → ys ≠ [] →
      joinDots (xs ++ ys) = joinDots xs ++ dotChar :: joinDots ys := by
  intro xs
  induction xs with
  | nil => intro ys h _; exact absurd rfl h
  | cons t xs' ih =>
    intro ys _ hy
    rcases xs' with _ | ⟨t2, xs''⟩
    · rcases ys with _ | ⟨y, ys'⟩
      · exact absurd rfl hy
      · rfl
    · show joinDots (t :: (t2 :: xs'' ++ ys)) = _
      have h1 : joinDots (t :: (t2 :: xs'' ++ ys)) =
          t ++ dotChar :: joinDots (t2 :: xs'' ++ ys) := by
        rcases ys with _ | _ <;> rfl
      rw [h1, ih ys (by simp) hy]
      simp [joinDots]

theorem joinDots_map_renderComp :
    ∀ cs : List ChunkComponent,
      joinDots (cs.map renderComp) = joinDots (fmtTokens cs) := by
  intro cs
  induction cs with
  | nil => rfl
  | cons c cs' ih =>
    rcases cs' with _ | ⟨c2, cs''⟩
    · show joinDots [renderComp c] = joinDots [headStr c, pakStr]
      simp [joinDots, renderComp]
    · have hmap : (c :: c2 :: cs'').map renderComp =
          [renderComp c] ++ (c2 :: cs'').map renderComp := by simp
      have htok : fmtTokens (c :: c2 :: cs'') =
          [headStr c, pakStr] ++ fmtTokens (c2 :: cs'') := by simp [fmtTokens]
      rw [hmap, htok]
      rw [joinDots_append [renderComp c] _ (by simp) (by simp)]
      rw [joinDots_append [headStr c, pakStr] _ (by simp) (fmtTokens_ne_nil (by simp))]
      rw [ih]
      simp [joinDots, renderComp]

theorem render_eq_joinDots (n : ChunkName) :
    n.render = joinDots (fmtTokens n.components) := by
  unfold ChunkName.render
  exact joinDots_map_renderComp n.components

/-! ### Well-formedness of parsed components -/

/-- Bounds that hold for every component produced by parsing: numeric ids fit
in `u32` and DLC ids are dot-free (they come from a dot-split token). -/
def wfB : ChunkComponent → Prop
  | .base id => id ≤ u32Max
  | .dlc s => dotChar ∉ s
  | .patch id => id ≤ u32Max
  | .sub id => id ≤ u32Max
  | .subPatch id => id ≤ u32Max

/-- The `has_sub` discipline of the parse loop: starting from flag `hs`, a
`Patch` component only occurs while the flag is still false and a `SubPatch`
component only occurs while it is true; a `Sub` sets it. -/
def wfFrom : Bool → List ChunkComponent → Prop
  | _, [] => True
  | hs, .base _ :: cs => wfFrom hs cs
  | hs, .dlc _ :: cs => wfFrom hs cs
  | _, .sub _ :: cs => wfFrom true cs
  | hs, .patch _ :: cs => hs = false ∧ wfFrom hs cs
  | hs, .subPatch _ :: cs => hs = true ∧ wfFrom hs cs

/-- The raw classification that `parse_component` recovers from the rendered
head text of a component (`SubPatch` renders as a plain patch token). -/
def rawOf : ChunkComponent → RawComponent
  | .base id => .major id
  | .dlc s => .dlc s
  | .patch id => .patch id
  | .sub id => .sub id
  | .subPatch id => .patch id

theorem isPrefixOf_append_self (p sfx : Str) : p.isPrefixOf (p ++ sfx) = true := by
  rw [List.isPrefixOf_iff_prefix]
  exact List.prefix_append p sfx

theorem prefix_comparable {p q h : Str}
    (h1 : p.isPrefixOf h = true) (h2 : q.isPrefixOf h = true) :
    p <+: q ∨ q <+: p := by
  rw [List.isPrefixOf_iff_prefix] at h1 h2
  exact List.prefix_or_prefix_of_prefix h1 h2

theorem chunkPfx_not_of_dlc (s : Str) :
    ¬ chunkPfx.isPrefixOf (dlcPfx ++ s) = true := by
  intro h1
  rcases prefix_comparable h1 (isPrefixOf_append_self dlcPfx s) with h | h
  · exact absurd h (by decide)
  · exact absurd h (by decide)

theorem chunkPfx_not_of_patch (s : Str) :
    ¬ chunkPfx.isPrefixOf (patchPfx ++ s) = true := by
  intro h1
  rcases prefix_comparable h1 (isPrefixOf_append_self patchPfx s) with h | h
  · exact absurd h (by decide)
  · exact absurd h (by decide)

theorem chunkPfx_not_of_sub (s : Str) :
    ¬ chunkPfx.isPrefixOf (subPfx ++ s) = true := by
  intro h1
  rcases prefix_comparable h1 (isPrefixOf_append_self subPfx s) with h | h
  · exact absurd h (by decide)
  · exact absurd h (by decide)

theorem dlcPfx_not_of_patch (s : Str) :
    ¬ dlcPfx.isPrefixOf (patchPfx ++ s) = true := by
  intro h1
  rcases prefix_comparable h1 (isPrefixOf_append_self patchPfx s) with h | h
  · exact absurd h (by decide)
  · exact absurd h (by decide)

theorem dlcPfx_not_of_sub (s : Str) :
    ¬ dlcPfx.isPrefixOf (subPfx ++ s) = true := by
  intro h1
  rcases prefix_comparable h1 (isPrefixOf_append_self subPfx s) with h | h
  · exact absurd h (by decide)
  · exact absurd h (by decide)

theorem patchPfx_not_of_sub (s : Str) :
    ¬ patchPfx.isPrefixOf (subPfx ++ s) = true := by
  intro h1
  rcases prefix_comparable h1 (isPrefixOf_append_self subPfx s) with h | h
  · exact absurd h (by decide)
  · exact absurd h (by decide)

theorem parse_component_headStr {c : ChunkComponent} (h : wfB c) :
    ChunkName.parse_component (headStr c) = .ok (rawOf c) := by
  cases c with
  | base id =>
    unfold ChunkName.parse_component
    simp only [headStr, rawOf]
    rw [if_pos (isPrefixOf_append_self chunkPfx _)]
    rw [List.drop_left]
    rw [parseU32_pad3_natToDigits h]
  | dlc s =>
    unfold ChunkName.parse_component
    simp only [headStr, rawOf]
    rw [if_neg (chunkPfx_not_of_dlc s)]
    rw [if_pos (isPrefixOf_append_self dlcPfx _)]
    rw [List.drop_left]
  | patch id =>
    unfold ChunkName.parse_component
    simp only [headStr, rawOf]
    rw [if_neg (chunkPfx_not_of_patch _)]
    rw [if_neg (dlcPfx_not_of_patch _)]
    rw [if_pos (isPrefixOf_append_self patchPfx _)]
    rw [List.drop_left]
    rw [parseU32_pad3_natToDigits h]
  | sub id =>
    unfold ChunkName.parse_component
    simp only [headStr, rawOf]
    rw [if_neg (chunkPfx_not_of_sub _)]
    rw [if_neg (dlcPfx_not_of_sub _)]
    rw [if_neg (patchPfx_not_of_sub _)]
    rw [if_pos (isPrefixOf_append_self subPfx _)]
    rw [List.drop_left]
    rw [parseU32_pad3_natToDigits h]
  | subPatch id =>
    unfold ChunkName.parse_component
    simp only [headStr, rawOf]
    rw [if_neg (chunkPfx_not_of_patch _)]
    rw [if_neg (dlcPfx_not_of_patch _)]
    rw [if_pos (isPrefixOf_append_self patchPfx _)]
    rw [List.drop_left]
    rw [parseU32_pad3_natToDigits h]

theorem parse_component_ok_bounds {h : Str} {raw : RawComponent}
    (hp : ChunkName.parse_component h = .ok raw) (hdot : dotChar ∉ h) :
    match raw with
    | .major id => id ≤ u32Max
    | .dlc s => dotChar ∉ s
    | .patch id => id ≤ u32Max
    | .sub id => id ≤ u32Max := by
  unfold ChunkName.parse_component at hp
  by_cases h1 : chunkPfx.isPrefixOf h = true
  · rw [if_pos h1] at hp
    rcases hu : parseU32 (h.drop chunkPfx.length) with _ | v
    · rw [hu] at hp
      exact absurd hp (by simp)
    · rw [hu] at hp
      simp only [Except.ok.injEq] at hp
      subst hp
      exact parseU32_le_u32Max hu
  · rw [if_neg h1] at hp
    by_cases h2 : dlcPfx.isPrefixOf h = true
    · rw [if_pos h2] at hp
      simp only [Except.ok.injEq] at hp
      subst hp
      intro hmem
      exact hdot (List.drop_subset _ _ hmem)
    · rw [if_neg h2] at hp
      by_cases h3 : patchPfx.isPrefixOf h = true
      · rw [if_pos h3] at hp
        rcases hu : parseU32 (h.drop patchPfx.length) with _ | v
        · rw [hu] at hp
          exact absurd hp (by simp)
        · rw [hu] at hp
          simp only [Except.ok.injEq] at hp
          subst hp
          exact parseU32_le_u32Max hu
      · rw [if_neg h3] at hp
        by_cases h4 : subPfx.isPrefixOf h = true
        · rw [if_pos h4] at hp
          rcases hu : parseU32 (h.drop subPfx.length) with _ | v
          · rw [hu] at hp
            exact absurd hp (by simp)
          · rw [hu] at hp
            simp only [Except.ok.injEq] at hp
            subst hp
            exact parseU32_le_u32Max hu
        · rw [if_neg h4] at hp
          exact absurd hp (by simp)

theorem componentsLoop_ok_wfFrom :
    ∀ (heads : List Str) (hs : Bool) (comps : List ChunkComponent),
      ChunkName.componentsLoop heads hs = .ok comps → wfFrom hs comps := by
  intro heads
  induction heads with
  | nil =>
    intro hs comps h
    simp only [ChunkName.componentsLoop, Except.ok.injEq] at h
    subst h
    trivial
  | cons h0 rest ih =>
    intro hs comps h
    unfold ChunkName.componentsLoop at h
    rcases hpc : ChunkName.parse_component h0 with e | raw
    · rw [hpc] at h
      exact absurd h (by simp)
    · rw [hpc] at h
      cases raw with
      | major id =>
        rcases hrec : ChunkName.componentsLoop rest hs with e | tail
        · rw [hrec] at h
          exact absurd h (by simp [Except.map])
        · rw [hrec] at h
          simp only [Except.map, Except.ok.injEq] at h
          subst h
          exact ih hs tail hrec
      | dlc s =>
        rcases hrec : ChunkName.componentsLoop rest hs with e | tail
        · rw [hrec] at h
          exact absurd h (by simp [Except.map])
        · rw [hrec] at h
          simp only [Except.map, Except.ok.injEq] at h
          subst h
          exact ih hs tail hrec
      | sub id =>
        rcases hrec : ChunkName.componentsLoop rest true with e | tail
        · rw [hrec] at h
          exact absurd h (by simp [Except.map])
        · rw [hrec] at h
          simp only [Except.map, Except.ok.injEq] at h
          subst h
          exact ih true tail hrec
      | patch id =>
        rcases hrec : ChunkName.componentsLoop rest hs with e | tail
        · rw [hrec] at h
          exact absurd h (by simp [Except.map])
        · rw [hrec] at h
          simp only [Except.map, Except.ok.injEq] at h
          subst h
          cases hs with
          | true => exact ⟨rfl, ih true tail hrec⟩
          | false => exact ⟨rfl, ih false tail hrec⟩

theorem componentsLoop_ok_wfB :
    ∀ (heads : List Str) (hs : Bool) (comps : List ChunkComponent),
      ChunkName.componentsLoop heads hs = .ok comps →
      (∀ t ∈ heads, dotChar ∉ t) → ∀ c ∈ comps, wfB c := by
  intro heads
  induction heads with
  | nil =>
    intro hs comps h _
    simp only [ChunkName.componentsLoop, Except.ok.injEq] at h
    subst h
    intro c hc
    exact absurd hc (by simp)
  | cons h0 rest ih =>
    intro hs comps h hdot
    have hdot0 : dotChar ∉ h0 := hdot h0 (List.mem_cons_self _ _)
    have hdotr : ∀ t ∈ rest, dotChar ∉ t :=
      fun t ht => hdot t (List.mem_cons_of_mem _ ht)
    unfold ChunkName.componentsLoop at h
    rcases hpc : ChunkName.parse_component h0 with e | raw
    · rw [hpc] at h
      exact absurd h (by simp)
    · rw [hpc] at h
      have hbound := parse_component_ok_bounds hpc hdot0
      cases raw with
      | major id =>
        rcases hrec : ChunkName.componentsLoop rest hs with e | tail
        · rw [hrec] at h
          exact absurd h (by simp [Except.map])
        · rw [hrec] at h
          simp only [Except.map, Except.ok.injEq] at h
          subst h
          intro c hc
          rcases List.mem_cons.mp hc with rfl | hc
          · exact hbound
          · exact ih hs tail hrec hdotr c hc
      | dlc s =>
        rcases hrec : ChunkName.componentsLoop rest hs with e | tail
        · rw [hrec] at h
          exact absurd h (by simp [Except.map])
        · rw [hrec] at h
          simp only [Except.map, Except.ok.injEq] at h
          subst h
          intro c hc
          rcases List.mem_cons.mp hc with rfl | hc
          · exact hbound
          · exact ih hs tail hrec hdotr c hc
      | sub id =>
        rcases hrec : ChunkName.componentsLoop rest true with e | tail
        · rw [hrec] at h
          exact absurd h (by simp [Except.map])
        · rw [hrec] at h
          simp only [Except.map, Except.ok.injEq] at h
          subst h
          intro c hc
          rcases List.mem_cons.mp hc with rfl | hc
          · exact hbound
          · exact ih true tail hrec hdotr c hc
      | patch id =>
        rcases hrec : ChunkName.componentsLoop rest hs with e | tail
        · rw [hrec] at h
          exact absurd h (by simp [Except.map])
        · rw [hrec] at h
          simp only [Except.map, Except.ok.injEq] at h
          subst h
          intro c hc
          rcases List.mem_cons.mp hc with rfl | hc
          · cases hs <;> exact hbound
          · exact ih hs tail hrec hdotr c hc

theorem componentsLoop_ok_length :
    ∀ (heads : List Str) (hs : Bool) (comps : List ChunkComponent),
      ChunkName.componentsLoop heads hs = .ok comps →
      comps.length = heads.length := by
  intro heads
  induction heads with
  | nil =>
    intro hs comps h
    simp only [ChunkName.componentsLoop, Except.ok.injEq] at h
    subst h
    rfl
  | cons h0 rest ih =>
    intro hs comps h
    unfold ChunkName.componentsLoop at h
    rcases hpc : ChunkName.parse_component h0 with e | raw
    · rw [hpc] at h
      exact absurd h (by simp)
    · rw [hpc] at h
      cases raw with
      | major id =>
        rcases hrec : ChunkName.componentsLoop rest hs with e | tail
        · rw [hrec] at h
          exact absurd h (by simp [Except.map])
        · rw [hrec] at h
          simp only [Except.map, Except.ok.injEq] at h
          subst h
          simp [ih hs tail hrec]
      | dlc s =>
        rcases hrec : ChunkName.componentsLoop rest hs with e | tail
        · rw [hrec] at h
          exact absurd h (by simp [Except.map])
        · rw [hrec] at h
          simp only [Except.map, Except.ok.injEq] at h
          subst h
          simp [ih hs tail hrec]
      | sub id =>
        rcases hrec : ChunkName.componentsLoop rest true with e | tail
        · rw [hrec] at h
          exact absurd h (by simp [Except.map])
        · rw [hrec] at h
          simp only [Except.map, Except.ok.injEq] at h
          subst h
          simp [ih true tail hrec]
      | patch id =>
        rcases hrec : ChunkName.componentsLoop rest hs with e | tail
        · rw [hrec] at h
          exact absurd h (by simp [Except.map])
        · rw [hrec] at h
          simp only [Except.map, Except.ok.injEq] at h
          subst h
          simp [ih hs tail hrec]

theorem componentsLoop_headStr :
    ∀ (cs : List ChunkComponent) (hs : Bool), wfFrom hs cs → (∀ c ∈ cs, wfB c) →
      ChunkName.componentsLoop (cs.map headStr) hs = .ok cs := by
  intro cs
  induction cs with
  | nil => intro hs _ _; rfl
  | cons c cs' ih =>
    intro hs hwf hb
    have hbtail : ∀ d ∈ cs', wfB d := fun d hd => hb d (List.mem_cons_of_mem _ hd)
    show ChunkName.componentsLoop (headStr c :: cs'.map headStr) hs = .ok (c :: cs')
    unfold ChunkName.componentsLoop
    rw [parse_component_headStr (hb c (List.mem_cons_self _ _))]
    cases c with
    | base id =>
      show (ChunkName.componentsLoop (cs'.map headStr) hs).map
        (ChunkComponent.base id :: ·) = _
      rw [ih hs hwf hbtail]
      rfl
    | dlc s =>
      show (ChunkName.componentsLoop (cs'.map headStr) hs).map
        (ChunkComponent.dlc s :: ·) = _
      rw [ih hs hwf hbtail]
      rfl
    | sub id =>
      show (ChunkName.componentsLoop (cs'.map headStr) true).map
        (ChunkComponent.sub id :: ·) = _
      rw [ih true hwf hbtail]
      rfl
    | patch id =>
      obtain ⟨hhs, hwf'⟩ := hwf
      subst hhs
      show (ChunkName.componentsLoop (cs'.map headStr) false).map
        ((if false then ChunkComponent.subPatch id else ChunkComponent.patch id) :: ·) = _
      rw [ih false hwf' hbtail]
      rfl
    | subPatch id =>
      obtain ⟨hhs, hwf'⟩ := hwf
      subst hhs
      show (ChunkName.componentsLoop (cs'.map headStr) true).map
        ((if true then ChunkComponent.subPatch id else ChunkComponent.patch id) :: ·) = _
      rw [ih true hwf' hbtail]
      rfl

theorem dot_not_mem_pad3_digits (n : Nat) : dotChar ∉ pad3 (natToDigits n) := by
  intro hmem
  exact isDigitCh_ne_dot (mem_pad3_isDigit (mem_natToDigits_isDigit n) _ hmem) rfl

theorem headStr_no_dot {c : ChunkComponent} (h : wfB c) : dotChar ∉ headStr c := by
  cases c with
  | base id =>
    intro hmem
    rcases List.mem_append.mp hmem with hm | hm
    · exact absurd hm (by decide)
    · exact dot_not_mem_pad3_digits id hm
  | dlc s =>
    intro hmem
    rcases List.mem_append.mp hmem with hm | hm
    · exact absurd hm (by decide)
    · exact h hm
  | patch id =>
    intro hmem
    rcases List.mem_append.mp hmem with hm | hm
    · exact absurd hm (by decide)
    · exact dot_not_mem_pad3_digits id hm
  | sub id =>
    intro hmem
    rcases List.mem_append.mp hmem with hm | hm
    · exact absurd hm (by decide)
    · exact dot_not_mem_pad3_digits id hm
  | subPatch id =>
    intro hmem
    rcases List.mem_append.mp hmem with hm | hm
    · exact absurd hm (by decide)
    · exact dot_not_mem_pad3_digits id hm

theorem fmtTokens_no_dot {cs : List ChunkComponent} (hb : ∀ c ∈ cs, wfB c) :
    ∀ t ∈ fmtTokens cs, dotChar ∉ t := by
  intro t ht
  unfold fmtTokens at ht
  rcases List.mem_flatten.mp ht with ⟨l, hl, htl⟩
  rcases List.mem_map.mp hl with ⟨c, hc, rfl⟩
  rcases List.mem_cons.mp htl with rfl | htl
  · exact headStr_no_dot (hb c hc)
  · rcases List.mem_cons.mp htl with rfl | htl
    · decide
    · exact absurd htl (by simp)

theorem fmtTokens_length (cs : List ChunkComponent) :
    (fmtTokens cs).length = 2 * cs.length := by
  induction cs with
  | nil => rfl
  | cons c cs' ih =>
    show (fmtTokens (c :: cs')).length = 2 * (cs'.length + 1)
    have : fmtTokens (c :: cs') = [headStr c, pakStr] ++ fmtTokens cs' := by
      simp [fmtTokens]
    rw [this]
    simp only [List.length_append]
    rw [ih]
    simp
    ring

theorem pairUp_fmtTokens (cs : List ChunkComponent) :
    pairUp (fmtTokens cs) = cs.map (fun c => (headStr c, pakStr)) := by
  induction cs with
  | nil => rfl
  | cons c cs' ih =>
    have h1 : fmtTokens (c :: cs') = headStr c :: pakStr :: fmtTokens cs' := by
      simp [fmtTokens]
    rw [h1]
    show (headStr c, pakStr) :: pairUp (fmtTokens cs') = _
    rw [ih]
    rfl

theorem mem_pairUp {α : Type} :
    ∀ (l : List α) (p : α × α), p ∈ pairUp l → p.1 ∈ l ∧ p.2 ∈ l
  | [], p, hp => absurd hp (by simp [pairUp])
  | [a], p, hp => absurd hp (by simp [pairUp])
  | a :: b :: rest, p, hp => by
    rcases List.mem_cons.mp hp with rfl | hp
    · exact ⟨List.mem_cons_self _ _, List.mem_cons_of_mem _ (List.mem_cons_self _ _)⟩
    · obtain ⟨h1, h2⟩ := mem_pairUp rest p hp
      exact ⟨List.mem_cons_of_mem _ (List.mem_cons_of_mem _ h1),
        List.mem_cons_of_mem _ (List.mem_cons_of_mem _ h2)⟩

theorem try_from_str_ok_destruct {t : Str} {n : ChunkName}
    (h : ChunkName.try_from_str t = .ok n) :
    ¬((splitOn dotChar t).length < 2 ∨ (splitOn dotChar t).length % 2 ≠ 0) ∧
    ((pairUp (splitOn dotChar t)).all fun p => decide (p.2 = pakStr)) = true ∧
    ChunkName.componentsLoop ((pairUp (splitOn dotChar t)).map Prod.fst) false =
      .ok n.components := by
  unfold ChunkName.try_from_str at h
  by_cases h1 : (splitOn dotChar t).length < 2 ∨ (splitOn dotChar t).length % 2 ≠ 0
  · rw [if_pos h1] at h
    exact absurd h (by simp)
  · rw [if_neg h1] at h
    by_cases h2 : ((pairUp (splitOn dotChar t)).all fun p => decide (p.2 = pakStr)) = true
    · rw [if_neg (by simp [h2])] at h
      rcases hrec : ChunkName.componentsLoop
          ((pairUp (splitOn dotChar t)).map Prod.fst) false with e | comps
      · rw [hrec] at h
        exact absurd h (by simp [Except.map])
      · rw [hrec] at h
        simp only [Except.map, Except.ok.injEq] at h
        refine ⟨h1, h2, ?_⟩
        subst h
        rfl
    · rw [if_pos (by simpa using h2)] at h
      exact absurd h (by simp)

theorem try_from_str_mk {t : Str} {comps : List ChunkComponent}
    (h1 : ¬((splitOn dotChar t).length < 2 ∨ (splitOn dotChar t).length % 2 ≠ 0))
    (h2 : ((pairUp (splitOn dotChar t)).all fun p => decide (p.2 = pakStr)) = true)
    (h3 : ChunkName.componentsLoop ((pairUp (splitOn dotChar t)).map Prod.fst) false =
      .ok comps) :
    ChunkName.try_from_str t = .ok ⟨comps⟩ := by
  unfold ChunkName.try_from_str
  rw [if_neg h1, if_neg (by simp [h2]), h3]
  rfl

theorem pairUp_length {α : Type} :
    ∀ l : List α, (pairUp l).length = l.length / 2
  | [] => by simp [pairUp]
  | [a] => by simp [pairUp]
  | a :: b :: rest => by
    show (pairUp rest).length + 1 = (rest.length + 2) / 2
    rw [pairUp_length rest]
    omega

theorem try_from_str_render {t : Str} {n : ChunkName}
    (h : ChunkName.try_from_str t = .ok n) :
    ChunkName.try_from_str n.render = .ok n := by
  obtain ⟨h1, h2, h3⟩ := try_from_str_ok_destruct h
  have hdotHeads : ∀ u ∈ (pairUp (splitOn dotChar t)).map Prod.fst, dotChar ∉ u := by
    intro u hu
    rcases List.mem_map.mp hu with ⟨p, hp, rfl⟩
    exact mem_splitOn_not_sep (mem_pairUp _ p hp).1
  have hwfF : wfFrom false n.components := componentsLoop_ok_wfFrom _ _ _ h3
  have hwfBs : ∀ c ∈ n.components, wfB c := componentsLoop_ok_wfB _ _ _ h3 hdotHeads
  have hlen : n.components.length = ((pairUp (splitOn dotChar t)).map Prod.fst).length :=
    componentsLoop_ok_length _ _ _ h3
  have hsplitlen : 2 ≤ (splitOn dotChar t).length := by
    by_contra hc
    push_neg at hc
    exact h1 (Or.inl hc)
  have hcompslen : 1 ≤ n.components.length := by
    rw [hlen]
    rw [List.length_map, pairUp_length]
    omega
  have hne : n.components ≠ [] := by
    intro hcon
    rw [hcon] at hcompslen
    simp at hcompslen
  have htok : splitOn dotChar n.render = fmtTokens n.components := by
    rw [render_eq_joinDots]
    exact splitOn_joinDots _ (fmtTokens_ne_nil hne) (fmtTokens_no_dot hwfBs)
  have hg1 : ¬((splitOn dotChar n.render).length < 2 ∨
      (splitOn dotChar n.render).length % 2 ≠ 0) := by
    rw [htok, fmtTokens_length]
    omega
  have hpair : pairUp (splitOn dotChar n.render) =
      n.components.map (fun c => (headStr c, pakStr)) := by
    rw [htok]
    exact pairUp_fmtTokens _
  have hg2 : ((pairUp (splitOn dotChar n.render)).all fun p => decide (p.2 = pakStr)) =
      true := by
    rw [hpair]
    simp [List.all_eq_true]
  have hheads : (pairUp (splitOn dotChar n.render)).map Prod.fst =
      n.components.map headStr := by
    rw [hpair]
    simp [List.map_map]
  have h3' : ChunkName.componentsLoop
      ((pairUp (splitOn dotChar n.render)).map Prod.fst) false = .ok n.components := by
    rw [hheads]
    exact componentsLoop_headStr _ false hwfF hwfBs
  exact try_from_str_mk hg1 hg2 h3'

/-! ### Positional form of the `has_sub` discipline -/

/-- Some `Sub` component occurs at an index strictly before `i`. -/
def hasSubBefore (cs : List ChunkComponent) (i : Nat) : Prop :=
  ∃ j, j < i ∧ ∃ sid, cs[j]? = some (ChunkComponent.sub sid)

theorem hasSubBefore_cons_succ (c : ChunkComponent) (cs : List ChunkComponent) (i : Nat) :
    hasSubBefore (c :: cs) (i + 1) ↔
      (∃ sid, c = ChunkComponent.sub sid) ∨ hasSubBefore cs i := by
  constructor
  · rintro ⟨j, hj, sid, hget⟩
    cases j with
    | zero =>
      simp at hget
      exact Or.inl ⟨sid, hget⟩
    | succ j =>
      simp only [List.getElem?_cons_succ] at hget
      exact Or.inr ⟨j, by omega, sid, hget⟩
  · rintro (⟨sid, rfl⟩ | ⟨j, hj, sid, hget⟩)
    · exact ⟨0, by omega, sid, by simp⟩
    · exact ⟨j + 1, by omega, sid, by simpa using hget⟩

theorem wfFrom_positional :
    ∀ (cs : List ChunkComponent) (hs : Bool), wfFrom hs cs →
      ∀ i, (∀ id, cs[i]? = some (ChunkComponent.patch id) →
              hs = false ∧ ¬ hasSubBefore cs i) ∧
           (∀ id, cs[i]? = some (ChunkComponent.subPatch id) →
              hs = true ∨ hasSubBefore cs i) := by
  intro cs
  induction cs with
  | nil =>
    intro hs _ i
    constructor <;> intro id hget <;> simp at hget
  | cons c cs' ih =>
    intro hs hwf i
    cases i with
    | zero =>
      cases c with
      | base id' => constructor <;> intro id hget <;> simp at hget
      | dlc s => constructor <;> intro id hget <;> simp at hget
      | sub id' => constructor <;> intro id hget <;> simp at hget
      | patch id' =>
        constructor
        · intro id _
          refine ⟨hwf.1, ?_⟩
          rintro ⟨j, hj, _⟩
          omega
        · intro id hget
          simp at hget
      | subPatch id' =>
        constructor
        · intro id hget
          simp at hget
        · intro id _
          exact Or.inl hwf.1
    | succ i =>
      cases c with
      | base id' =>
        have htail := ih hs hwf i
        constructor
        · intro id hget
          simp only [List.getElem?_cons_succ] at hget
          obtain ⟨h1, h2⟩ := htail.1 id hget
          refine ⟨h1, ?_⟩
          rw [hasSubBefore_cons_succ]
          rintro (⟨sid, hc⟩ | hb)
          · exact absurd hc (by simp)
          · exact h2 hb
        · intro id hget
          simp only [List.getElem?_cons_succ] at hget
          rcases htail.2 id hget with h1 | h1
          · exact Or.inl h1
          · exact Or.inr ((hasSubBefore_cons_succ _ _ _).mpr (Or.inr h1))
      | dlc s =>
        have htail := ih hs hwf i
        constructor
        · intro id hget
          simp only [List.getElem?_cons_succ] at hget
          obtain ⟨h1, h2⟩ := htail.1 id hget
          refine ⟨h1, ?_⟩
          rw [hasSubBefore_cons_succ]
          rintro (⟨sid, hc⟩ | hb)
          · exact absurd hc (by simp)
          · exact h2 hb
        · intro id hget
          simp only [List.getElem?_cons_succ] at hget
          rcases htail.2 id hget with h1 | h1
          · exact Or.inl h1
          · exact Or.inr ((hasSubBefore_cons_succ _ _ _).mpr (Or.inr h1))
      | sub id' =>
        have htail := ih true hwf i
        constructor
        · intro id hget
          simp only [List.getElem?_cons_succ] at hget
          exact absurd (htail.1 id hget).1 (by simp)
        · intro id _
          exact Or.inr ⟨0, by omega, id', by simp⟩
      | patch id' =>
        obtain ⟨hhs, hwf'⟩ := hwf
        subst hhs
        have htail := ih false hwf' i
        constructor
        · intro id hget
          simp only [List.getElem?_cons_succ] at hget
          obtain ⟨h1, h2⟩ := htail.1 id hget
          refine ⟨rfl, ?_⟩
          rw [hasSubBefore_cons_succ]
          rintro (⟨sid, hc⟩ | hb)
          · exact absurd hc (by simp)
          · exact h2 hb
        · intro id hget
          simp only [List.getElem?_cons_succ] at hget
          rcases htail.2 id hget with h1 | h1
          · exact absurd h1 (by simp)
          · exact Or.inr ((hasSubBefore_cons_succ _ _ _).mpr (Or.inr h1))
      | subPatch id' =>
        obtain ⟨hhs, hwf'⟩ := hwf
        subst hhs
        have htail := ih true hwf' i
        constructor
        · intro id hget
          simp only [List.getElem?_cons_succ] at hget
          exact absurd (htail.1 id hget).1 (by simp)
        · intro id _
          exact Or.inl rfl

/-! ## Claim C2 -/

/-- Claim C2 counterexample: `"re_chunk_0.pak"` is accepted by
`ChunkName::try_from_str`, but rendering the parsed name yields the padded
`"re_chunk_000.pak"`, not the original text, so `format(parse(text)) = text`
fails for some accepted text. -/
theorem claim_roundtrip_counterexample :
    ChunkName.try_from_str ("re_chunk_0.pak".toList) =
      .ok ⟨[ChunkComponent.base 0]⟩ ∧
    ChunkName.render ⟨[ChunkComponent.base 0]⟩ ≠ "re_chunk_0.pak".toList := by
  constructor
  · decide
  · decide

/-- Claim C2 (amended): for every `ChunkName` obtained by parsing,
re-parsing its rendered text yields the same name
(`parse(format(parse(text))) = parse(text)`); the other direction
`format(parse(text)) = text` holds only for canonically padded texts. -/
theorem claim_roundtrip_parse_render (t : Str) (n : ChunkName)
    (h : ChunkName.try_from_str t = .ok n) :
    ChunkName.try_from_str n.render = .ok n :=
  try_from_str_render h

/-- Witness for the amended claim C2 at a concrete parsed name. -/
theorem claim_roundtrip_parse_render_witness :
    ChunkName.try_from_str ("re_chunk_000.pak.sub_000.pak.patch_001.pak".toList) =
      .ok ⟨[ChunkComponent.base 0, ChunkComponent.sub 0, ChunkComponent.subPatch 1]⟩ ∧
    ChunkName.try_from_str
        (ChunkName.render
          ⟨[ChunkComponent.base 0, ChunkComponent.sub 0, ChunkComponent.subPatch 1]⟩) =
      .ok ⟨[ChunkComponent.base 0, ChunkComponent.sub 0, ChunkComponent.subPatch 1]⟩ :=
  ⟨by decide,
    claim_roundtrip_parse_render ("re_chunk_000.pak.sub_000.pak.patch_001.pak".toList)
      ⟨[ChunkComponent.base 0, ChunkComponent.sub 0, ChunkComponent.subPatch 1]⟩
      (by decide)⟩

/-! ## Claim C6 -/

/-- Claim C6: in every successfully parsed name, a component at position `i`
is a `SubPatch` only if some `Sub` component occurs strictly earlier, and is
a `Patch` only if no `Sub` component occurs strictly earlier — the patch
token is reclassified during parsing exactly when a `Sub` came before it. -/
theorem claim_patch_reclassification (t : Str) (n : ChunkName)
    (h : ChunkName.try_from_str t = .ok n) (i : Nat) :
    (∀ id, n.components[i]? = some (ChunkComponent.subPatch id) →
      hasSubBefore n.components i) ∧
    (∀ id, n.components[i]? = some (ChunkComponent.patch id) →
      ¬ hasSubBefore n.components i) := by
  obtain ⟨_, _, h3⟩ := try_from_str_ok_destruct h
  have hwf : wfFrom false n.components := componentsLoop_ok_wfFrom _ _ _ h3
  have hpos := wfFrom_positional n.components false hwf i
  constructor
  · intro id hget
    rcases hpos.2 id hget with h1 | h1
    · exact absurd h1 (by simp)
    · exact h1
  · intro id hget
    exact (hpos.1 id hget).2

/-- Witness for claim C6: in the parsed
`re_chunk_000.pak.sub_000.pak.patch_001.pak` the `SubPatch` at index 2 has a
`Sub` strictly before it. -/
theorem claim_patch_reclassification_witness :
    ChunkName.try_from_str ("re_chunk_000.pak.sub_000.pak.patch_001.pak".toList) =
      .ok ⟨[ChunkComponent.base 0, ChunkComponent.sub 0, ChunkComponent.subPatch 1]⟩ ∧
    hasSubBefore [ChunkComponent.base 0, ChunkComponent.sub 0, ChunkComponent.subPatch 1] 2 :=
  ⟨by decide,
    (claim_patch_reclassification ("re_chunk_000.pak.sub_000.pak.patch_001.pak".toList)
      ⟨[ChunkComponent.base 0, ChunkComponent.sub 0, ChunkComponent.subPatch 1]⟩
      (by decide) 2).1 1 (by decide)⟩

/-! ## Claim C10 -/

/-- Claim C10: the parser does not require a leading `Base` or `Dlc`
component: a lone sub token and a lone patch token both parse, and the lone
patch token (no earlier `Sub`) is stored as `Patch`. -/
theorem claim_no_leading_base_required :
    ChunkName.try_from_str ("sub_000.pak".toList) = .ok ⟨[ChunkComponent.sub 0]⟩ ∧
    ChunkName.try_from_str ("patch_001.pak".toList) = .ok ⟨[ChunkComponent.patch 1]⟩ := by
  constructor
  · decide
  · decide

/-! ## Ordering of chunk names (impl Ord for ChunkName) -/

/-- `u32::cmp` (and the standard library integer comparator) on `Nat`. -/
def natCmp (a b : Nat) : Ordering :=
  if a < b then .lt else if a = b then .eq else .gt

/-- Rust `char`/byte comparison by code point. -/
def charCmp (a b : Char) : Ordering := natCmp a.toNat b.toNat

/-- Rust `str::cmp`: lexicographic comparison. -/
def strCmp : Str → Str → Ordering
  | [], [] => .eq
  | [], _ :: _ => .lt
  | _ :: _, [] => .gt
  | a :: as, b :: bs => (charCmp a b).then (strCmp as bs)

/-- The per-component comparison match of `impl Ord for ChunkName`
(src/chunk.rs, lines 202-221), arm for arm. -/
def componentCmp : ChunkComponent → ChunkComponent → Ordering
  | .base a, .base b => natCmp a b
  | .dlc a, .dlc b => strCmp a b
  | .patch a, .patch b => natCmp a b
  | .sub a, .sub b => natCmp a b
  | .subPatch a, .subPatch b => natCmp a b
  | .base _, _ => .lt
  | _, .base _ => .gt
  | .dlc _, _ => .lt
  | _, .dlc _ => .gt
  | .sub _, _ => .lt
  | _, .sub _ => .gt
  | .patch _, .subPatch _ => .lt
  | .subPatch _, .patch _ => .gt

/-- The pairwise loop of `impl Ord for ChunkName`: first non-equal component
comparison wins (the zip stops at the shorter list). -/
def lexCmp : List ChunkComponent → List ChunkComponent → Ordering
  | [], _ => .eq
  | _ :: _, [] => .eq
  | a :: as, b :: bs => (componentCmp a b).then (lexCmp as bs)

/-- `ChunkName::cmp`: component count first, then the pairwise loop. -/
def ChunkName.cmp (a b : ChunkName) : Ordering :=
  (natCmp a.components.length b.components.length).then
    (lexCmp a.components b.components)

/-- The type priority of a component in the ordering:
Base < Dlc < Sub < Patch < SubPatch. -/
def prio : ChunkComponent → Nat
  | .base _ => 0
  | .dlc _ => 1
  | .sub _ => 2
  | .patch _ => 3
  | .subPatch _ => 4

/-- Same-type value comparison (numeric ids, lexical DLC ids). -/
def valCmp : ChunkComponent → ChunkComponent → Ordering
  | .base a, .base b => natCmp a b
  | .dlc a, .dlc b => strCmp a b
  | .patch a, .patch b => natCmp a b
  | .sub a, .sub b => natCmp a b
  | .subPatch a, .subPatch b => natCmp a b
  | _, _ => .eq

theorem natCmp_eq_eq {a b : Nat} : natCmp a b = .eq ↔ a = b := by
  unfold natCmp
  split_ifs with h1 h2
  · simp only [reduceCtorEq, false_iff]
    omega
  · simp [h2]
  · simp only [reduceCtorEq, false_iff]
    omega

theorem natCmp_eq_lt {a b : Nat} : natCmp a b = .lt ↔ a < b := by
  unfold natCmp
  split_ifs with h1 h2
  · simp [h1]
  · simp only [reduceCtorEq, false_iff]
    omega
  · simp only [reduceCtorEq, false_iff]
    omega

theorem natCmp_swap (a b : Nat) : (natCmp a b).swap = natCmp b a := by
  unfold natCmp
  split_ifs with h1 h2 h3 h4 h5 h6 <;> first | rfl | omega

theorem natCmp_trans {a b c : Nat} (h1 : natCmp a b = .lt) (h2 : natCmp b c = .lt) :
    natCmp a c = .lt := by
  rw [natCmp_eq_lt] at h1 h2 ⊢
  omega

theorem ordThen_eq_eq {a b : Ordering} : a.then b = .eq ↔ a = .eq ∧ b = .eq := by
  cases a <;> simp [Ordering.then]

theorem ordThen_eq_lt {a b : Ordering} :
    a.then b = .lt ↔ a = .lt ∨ (a = .eq ∧ b = .lt) := by
  cases a <;> simp [Ordering.then]

theorem ordThen_swap (a b : Ordering) : (a.then b).swap = a.swap.then b.swap := by
  cases a <;> rfl

theorem charCmp_eq_eq {a b : Char} : charCmp a b = .eq ↔ a = b := by
  unfold charCmp
  rw [natCmp_eq_eq]
  constructor
  · intro h
    have := Char.ofNat_toNat a
    rw [h, Char.ofNat_toNat b] at this
    exact this.symm
  · intro h
    rw [h]

theorem charCmp_swap (a b : Char) : (charCmp a b).swap = charCmp b a :=
  natCmp_swap _ _

theorem strCmp_eq_eq : ∀ {s t : Str}, strCmp s t = .eq ↔ s = t := by
  intro s
  induction s with
  | nil =>
    intro t
    cases t <;> simp [strCmp]
  | cons a as ih =>
    intro t
    cases t with
    | nil => simp [strCmp]
    | cons b bs =>
      show (charCmp a b).then (strCmp as bs) = .eq ↔ _
      rw [ordThen_eq_eq, charCmp_eq_eq, ih]
      simp

theorem strCmp_swap : ∀ (s t : Str), (strCmp s t).swap = strCmp t s := by
  intro s
  induction s with
  | nil => intro t; cases t <;> rfl
  | cons a as ih =>
    intro t
    cases t with
    | nil => rfl
    | cons b bs =>
      show ((charCmp a b).then (strCmp as bs)).swap = (charCmp b a).then (strCmp bs as)
      rw [ordThen_swap, charCmp_swap, ih]

theorem strCmp_trans : ∀ (s t u : Str),
    strCmp s t = .lt → strCmp t u = .lt → strCmp s u = .lt := by
  intro s
  induction s with
  | nil =>
    intro t u h1 h2
    cases t with
    | nil => exact h2
    | cons b bs =>
      cases u with
      | nil => exact absurd h2 (by simp [strCmp])
      | cons c cs => rfl
  | cons a as ih =>
    intro t u h1 h2
    cases t with
    | nil => exact absurd h1 (by simp [strCmp])
    | cons b bs =>
      cases u with
      | nil => exact absurd h2 (by simp [strCmp])
      | cons c cs =>
        show (charCmp a c).then (strCmp as cs) = .lt
        rw [ordThen_eq_lt]
        have h1' := ordThen_eq_lt.mp h1
        have h2' := ordThen_eq_lt.mp h2
        unfold charCmp at h1' h2' ⊢
        rcases h1' with hab | ⟨hab, htab⟩ <;> rcases h2' with hbc | ⟨hbc, htbc⟩
        · exact Or.inl (natCmp_trans hab hbc)
        · rw [natCmp_eq_eq] at hbc
          exact Or.inl (by rw [natCmp_eq_lt] at hab ⊢; omega)
        · rw [natCmp_eq_eq] at hab
          exact Or.inl (by rw [natCmp_eq_lt] at hbc ⊢; omega)
        · rw [natCmp_eq_eq] at hab hbc
          refine Or.inr ⟨by rw [natCmp_eq_eq]; omega, ih bs cs htab htbc⟩

theorem componentCmp_eq_prio_then (a b : ChunkComponent) :
    componentCmp a b = (natCmp (prio a) (prio b)).then (valCmp a b) := by
  cases a <;> cases b <;> rfl

theorem componentCmp_eq_eq {a b : ChunkComponent} :
    componentCmp a b = .eq ↔ a = b := by
  cases a <;> cases b <;>
    simp [componentCmp, natCmp_eq_eq, strCmp_eq_eq]

theorem componentCmp_swap (a b : ChunkComponent) :
    (componentCmp a b).swap = componentCmp b a := by
  cases a <;> cases b <;>
    simp [componentCmp, natCmp_swap, strCmp_swap] <;> rfl

theorem componentCmp_lt_iff (a b : ChunkComponent) :
    componentCmp a b = .lt ↔
      (prio a < prio b ∨ (prio a = prio b ∧ valCmp a b = .lt)) := by
  cases a <;> cases b <;>
    simp [componentCmp, valCmp, prio]

theorem valCmp_trans : ∀ a b c : ChunkComponent, prio a = prio b → prio b = prio c →
    valCmp a b = .lt → valCmp b c = .lt → valCmp a c = .lt := by
  intro a b c e1 e2 v1 v2
  cases a <;> cases b <;> cases c <;>
    simp only [prio] at e1 e2 <;>
    first
      | omega
      | exact natCmp_trans v1 v2
      | exact strCmp_trans _ _ _ v1 v2

theorem componentCmp_trans {a b c : ChunkComponent}
    (h1 : componentCmp a b = .lt) (h2 : componentCmp b c = .lt) :
    componentCmp a c = .lt := by
  rw [componentCmp_lt_iff] at h1 h2 ⊢
  rcases h1 with h1 | ⟨e1, v1⟩
  · rcases h2 with h2 | ⟨e2, v2⟩
    · exact Or.inl (by omega)
    · exact Or.inl (by omega)
  · rcases h2 with h2 | ⟨e2, v2⟩
    · exact Or.inl (by omega)
    · exact Or.inr ⟨by omega, valCmp_trans a b c e1 e2 v1 v2⟩

theorem lexCmp_eq_eq : ∀ as bs : List ChunkComponent, as.length = bs.length →
    (lexCmp as bs = .eq ↔ as = bs) := by
  intro as
  induction as with
  | nil =>
    intro bs hlen
    cases bs with
    | nil => simp [lexCmp]
    | cons b bs' => simp at hlen
  | cons a as' ih =>
    intro bs hlen
    cases bs with
    | nil => simp at hlen
    | cons b bs' =>
      show (componentCmp a b).then (lexCmp as' bs') = .eq ↔ _
      rw [ordThen_eq_eq, componentCmp_eq_eq, ih bs' (by simpa using hlen)]
      simp

theorem lexCmp_swap : ∀ as bs : List ChunkComponent,
    (lexCmp as bs).swap = lexCmp bs as := by
  intro as
  induction as with
  | nil => intro bs; cases bs <;> rfl
  | cons a as' ih =>
    intro bs
    cases bs with
    | nil => rfl
    | cons b bs' =>
      show ((componentCmp a b).then (lexCmp as' bs')).swap = _
      rw [ordThen_swap, componentCmp_swap, ih]
      rfl

theorem lexCmp_trans : ∀ as bs cs : List ChunkComponent,
    lexCmp as bs = .lt → lexCmp bs cs = .lt → lexCmp as cs = .lt := by
  intro as
  induction as with
  | nil =>
    intro bs cs h1 h2
    cases bs <;> simp [lexCmp] at h1
  | cons a as' ih =>
    intro bs cs h1 h2
    cases bs with
    | nil => simp [lexCmp] at h1
    | cons b bs' =>
      cases cs with
      | nil => simp [lexCmp] at h2
      | cons c cs' =>
        show (componentCmp a c).then (lexCmp as' cs') = .lt
        rw [ordThen_eq_lt]
        have h1' := ordThen_eq_lt.mp h1
        have h2' := ordThen_eq_lt.mp h2
        rcases h1' with hab | ⟨hab, htab⟩ <;> rcases h2' with hbc | ⟨hbc, htbc⟩
        · exact Or.inl (componentCmp_trans hab hbc)
        · rw [componentCmp_eq_eq] at hbc
          subst hbc
          exact Or.inl hab
        · rw [componentCmp_eq_eq] at hab
          subst hab
          exact Or.inl hbc
        · rw [componentCmp_eq_eq] at hab
          subst hab
          exact Or.inr ⟨hbc, ih bs' cs' htab htbc⟩

theorem chunkCmp_eq_eq {a b : ChunkName} : ChunkName.cmp a b = .eq ↔ a = b := by
  unfold ChunkName.cmp
  rw [ordThen_eq_eq, natCmp_eq_eq]
  constructor
  · rintro ⟨hlen, hlex⟩
    have := (lexCmp_eq_eq _ _ hlen).mp hlex
    cases a
    cases b
    simp_all
  · rintro rfl
    exact ⟨rfl, (lexCmp_eq_eq _ _ rfl).mpr rfl⟩

theorem chunkCmp_swap (a b : ChunkName) :
    (ChunkName.cmp a b).swap = ChunkName.cmp b a := by
  unfold ChunkName.cmp
  rw [ordThen_swap, natCmp_swap, lexCmp_swap]

theorem chunkCmp_trans {a b c : ChunkName}
    (h1 : ChunkName.cmp a b = .lt) (h2 : ChunkName.cmp b c = .lt) :
    ChunkName.cmp a c = .lt := by
  unfold ChunkName.cmp at h1 h2 ⊢
  rw [ordThen_eq_lt] at h1 h2 ⊢
  rcases h1 with h1 | ⟨e1, v1⟩
  · rcases h2 with h2 | ⟨e2, v2⟩
    · exact Or.inl (natCmp_trans h1 h2)
    · rw [natCmp_eq_eq] at e2
      rw [natCmp_eq_lt] at h1 ⊢
      exact Or.inl (by omega)
  · rcases h2 with h2 | ⟨e2, v2⟩
    · rw [natCmp_eq_eq] at e1
      rw [natCmp_eq_lt] at h2 ⊢
      exact Or.inl (by omega)
    · rw [natCmp_eq_eq] at e1 e2
      exact Or.inr ⟨by rw [natCmp_eq_eq]; omega, lexCmp_trans _ _ _ v1 v2⟩

/-! ## Claim C5 -/

/-- Claim C5: `ChunkName::cmp` is a strict total order — for distinct names
exactly one of `a < b`, `b < a` holds and `<` is transitive; names with
fewer components sort before names with more components; at equal length the
comparison is the pairwise component loop; and components of different types
compare by the fixed priority Base < Dlc < Sub < Patch < SubPatch (`prio`)
before the same-type value comparison. -/
theorem claim_name_order :
    (∀ a b : ChunkName, a ≠ b →
      ((ChunkName.cmp a b = .lt ∧ ¬ ChunkName.cmp b a = .lt) ∨
       (ChunkName.cmp b a = .lt ∧ ¬ ChunkName.cmp a b = .lt))) ∧
    (∀ a b c : ChunkName, ChunkName.cmp a b = .lt → ChunkName.cmp b c = .lt →
      ChunkName.cmp a c = .lt) ∧
    (∀ a b : ChunkName, a.components.length < b.components.length →
      ChunkName.cmp a b = .lt) ∧
    (∀ a b : ChunkName, a.components.length = b.components.length →
      ChunkName.cmp a b = lexCmp a.components b.components) ∧
    (∀ c d : ChunkComponent,
      componentCmp c d = (natCmp (prio c) (prio d)).then (valCmp c d)) := by
  refine ⟨?_, ?_, ?_, ?_, ?_⟩
  · intro a b hne
    have hswap := chunkCmp_swap a b
    cases hcmp : ChunkName.cmp a b with
    | lt =>
      left
      refine ⟨rfl, ?_⟩
      rw [← hswap, hcmp]
      simp [Ordering.swap]
    | eq => exact absurd (chunkCmp_eq_eq.mp hcmp) hne
    | gt =>
      right
      refine ⟨?_, ?_⟩
      · rw [← hswap, hcmp]
        rfl
      · simp [hcmp]
  · intro a b c h1 h2
    exact chunkCmp_trans h1 h2
  · intro a b h
    show (natCmp _ _).then _ = .lt
    rw [ordThen_eq_lt]
    exact Or.inl (natCmp_eq_lt.mpr h)
  · intro a b h
    show (natCmp _ _).then _ = _
    rw [natCmp_eq_eq.mpr h]
    rfl
  · exact componentCmp_eq_prio_then

/-- Witness for claim C5: the trichotomy applied to the distinct names
`re_chunk_000.pak` and `re_chunk_001.pak`. -/
theorem claim_name_order_witness :
    (ChunkName.mk [ChunkComponent.base 0] ≠ ChunkName.mk [ChunkComponent.base 1]) ∧
    ((ChunkName.cmp ⟨[ChunkComponent.base 0]⟩ ⟨[ChunkComponent.base 1]⟩ = .lt ∧
        ¬ ChunkName.cmp ⟨[ChunkComponent.base 1]⟩ ⟨[ChunkComponent.base 0]⟩ = .lt) ∨
     (ChunkName.cmp ⟨[ChunkComponent.base 1]⟩ ⟨[ChunkComponent.base 0]⟩ = .lt ∧
        ¬ ChunkName.cmp ⟨[ChunkComponent.base 0]⟩ ⟨[ChunkComponent.base 1]⟩ = .lt)) :=
  ⟨by decide, claim_name_order.1 ⟨[ChunkComponent.base 0]⟩ ⟨[ChunkComponent.base 1]⟩
    (by decide)⟩

/-! ## Restore-mode removal planning (App::restore_mode, src/app.rs) -/

namespace App

/-- The closure body of the `has_higher_patches` check in `App::restore_mode`
for one scanned chunk `c` against the removal candidate `chunk_name`.
`none` models a panic from `Option::unwrap` on a `None` id. -/
def higherCheck (chunk_name c : ChunkName) : Option Bool :=
  if c.major_id = chunk_name.major_id ∧ c.sub_id = chunk_name.sub_id then
    match c.sub_id, c.sub_patch_id with
    | some _, some pid =>
      match chunk_name.sub_patch_id with
      | some np => some (decide (np < pid))
      | none => none
    | none, some pid =>
      match chunk_name.patch_id with
      | some np => some (decide (np < pid))
      | none => none
    | _, _ => some false
  else some false

/-- `all_chunks.iter().any(...)` for the higher-patch check: short-circuits
on the first `true`, and propagates a panic of the closure. -/
def has_higher_patches : List ChunkName → ChunkName → Option Bool
  | [], _ => some false
  | c :: cs, chunk_name =>
    match higherCheck chunk_name c with
    | none => none
    | some true => some true
    | some false => has_higher_patches cs chunk_name

/-- The removal decision taken by `App::restore_mode` for one candidate. -/
inductive RemovalDecision : Type where
  | deletePlaceholder
  | deleteFinal
deriving DecidableEq, Repr

/-- One iteration of the patch-removal loop of `App::restore_mode`:
if a higher patch exists an empty placeholder is written (chunk set kept),
otherwise the file is deleted and its name removed from `all_chunks`
(`all_chunks.retain(|c| c != chunk_name)`). `none` models the unwrap panic
inside the check. -/
def removalStep (all_chunks : List ChunkName) (chunk_name : ChunkName) :
    Option (RemovalDecision × List ChunkName) :=
  match has_higher_patches all_chunks chunk_name with
  | none => none
  | some true => some (.deletePlaceholder, all_chunks)
  | some false =>
    some (.deleteFinal, all_chunks.filter (fun c => decide (c ≠ chunk_name)))

/-- The `max_patch_id` computation of `App::auto_mode` (patch mode): the
greatest `sub_patch_id` among chunks agreeing with the candidate on
`major_id`, `patch_id` and `sub_id` (`.max().unwrap_or(0)` is the fold of
`max` over `Nat` with default 0). -/
def max_patch_id (all_chunks : List ChunkName) (chunk_name : ChunkName) : Nat :=
  ((all_chunks.filter fun c =>
      decide (c.major_id = chunk_name.major_id ∧ c.patch_id = chunk_name.patch_id ∧
        c.sub_id = chunk_name.sub_id)).filterMap ChunkName.sub_patch_id).foldr max 0

/-- `new_patch_id = max_patch_id + 1` in `App::auto_mode` (src/app.rs line
348): `u32` addition, which wraps past `u32::MAX` — kept faithful with an
explicit `% 2^32`. -/
def new_patch_id (all_chunks : List ChunkName) (chunk_name : ChunkName) : Nat :=
  (max_patch_id all_chunks chunk_name + 1) % (u32Max + 1)

end App

/-- The greatest sub-patch ordinal of the spec's `PatchSeries`: names sharing
only the candidate's (base id, sub id), as §3 of the spec defines the series.
Used to state claim C4 in the spec's own terms. -/
def specSeriesMax (all_chunks : List ChunkName) (chunk_name : ChunkName) : Nat :=
  ((all_chunks.filter fun c =>
      decide (c.major_id = chunk_name.major_id ∧ c.sub_id = chunk_name.sub_id)).filterMap
    ChunkName.sub_patch_id).foldr max 0

/-- The spec's "patch ordinal at the (base, sub) position" of a name: the
sub-patch id when the name has a `Sub` component, its patch id otherwise.
Used to state claim C3 in the spec's own terms. -/
def specOrdinal (n : ChunkName) : Option Nat :=
  match n.sub_id with
  | some _ => n.sub_patch_id
  | none => n.patch_id

/-- Boolean form of the claim-side "another name has a strictly greater
sub-patch ordinal at the same (base, sub) position with the Sub level
present". -/
def specHigherB (n c : ChunkName) : Bool :=
  c.major_id == n.major_id && (c.sub_id == n.sub_id &&
    match c.sub_patch_id, n.sub_patch_id with
    | some pc, some pn => decide (pn < pc)
    | _, _ => false)

theorem specHigherB_iff (n c : ChunkName) :
    specHigherB n c = true ↔
      (c.major_id = n.major_id ∧ c.sub_id = n.sub_id ∧
        ∃ pc pn, c.sub_patch_id = some pc ∧ n.sub_patch_id = some pn ∧ pn < pc) := by
  unfold specHigherB
  rcases hcp : c.sub_patch_id with _ | pc <;> rcases hnp : n.sub_patch_id with _ | np <;>
    simp [Bool.and_eq_true, beq_iff_eq]

theorem higherCheck_eq {n c : ChunkName}
    (hc : c.sub_patch_id.isSome → c.sub_id.isSome)
    (hn : n.sub_id.isSome → n.sub_patch_id.isSome) :
    App.higherCheck n c = some (specHigherB n c) := by
  unfold App.higherCheck
  by_cases hg : c.major_id = n.major_id ∧ c.sub_id = n.sub_id
  · rw [if_pos hg]
    rcases hcs : c.sub_id with _ | s
    · rcases hcp : c.sub_patch_id with _ | pc
      · have hrhs : specHigherB n c = false := by
          unfold specHigherB
          rw [hcp]
          simp
        rw [hrhs]
      · exact absurd (hc (by rw [hcp]; rfl)) (by rw [hcs]; simp)
    · rcases hcp : c.sub_patch_id with _ | pc
      · have hrhs : specHigherB n c = false := by
          unfold specHigherB
          rw [hcp]
          simp
        rw [hrhs]
      · have hns : n.sub_id.isSome := by
          rw [← hg.2, hcs]
          rfl
        rcases hnp : n.sub_patch_id with _ | np
        · exact absurd (hn hns) (by rw [hnp]; simp)
        · have hrhs : specHigherB n c =
              ((c.major_id == n.major_id) &&
                ((c.sub_id == n.sub_id) && decide (np < pc))) := by
            unfold specHigherB
            rw [hcp, hnp]
          rw [hrhs]
          have h1 : (c.major_id == n.major_id) = true := by
            rw [beq_iff_eq]
            exact hg.1
          have h2 : (c.sub_id == n.sub_id) = true := by
            rw [beq_iff_eq]
            exact hg.2
          rw [h1, h2]
          simp
  · rw [if_neg hg]
    have hrhs : specHigherB n c = false := by
      rcases Bool.eq_false_or_eq_true (specHigherB n c) with h | h
      · exact absurd ((specHigherB_iff n c).mp h) (fun hP => hg ⟨hP.1, hP.2.1⟩)
      · exact h
    rw [hrhs]

theorem has_higher_patches_eq (chunks : List ChunkName) (n : ChunkName)
    (hc : ∀ c ∈ chunks, c.sub_patch_id.isSome → c.sub_id.isSome)
    (hn : n.sub_id.isSome → n.sub_patch_id.isSome) :
    App.has_higher_patches chunks n = some (chunks.any (specHigherB n)) := by
  induction chunks with
  | nil => rfl
  | cons c cs ih =>
    show (match App.higherCheck n c with
      | none => none
      | some true => some true
      | some false => App.has_higher_patches cs n) = _
    rw [higherCheck_eq (hc c (List.mem_cons_self _ _)) hn]
    cases hdec : specHigherB n c with
    | false =>
      rw [ih (fun d hd => hc d (List.mem_cons_of_mem _ hd))]
      simp [List.any_cons, hdec]
    | true =>
      simp [List.any_cons, hdec]

/-- Example: `re_chunk_000.pak.sub_000.pak`. -/
def exSub : ChunkName := ⟨[ChunkComponent.base 0, ChunkComponent.sub 0]⟩

/-- Example: `re_chunk_000.pak.sub_000.pak.patch_001.pak`. -/
def exP1 : ChunkName :=
  ⟨[ChunkComponent.base 0, ChunkComponent.sub 0, ChunkComponent.subPatch 1]⟩

/-- Example: `re_chunk_000.pak.sub_000.pak.patch_002.pak`. -/
def exP2 : ChunkName :=
  ⟨[ChunkComponent.base 0, ChunkComponent.sub 0, ChunkComponent.subPatch 2]⟩

/-- Example: `re_chunk_000.pak.sub_000.pak.patch_003.pak`. -/
def exP3 : ChunkName :=
  ⟨[ChunkComponent.base 0, ChunkComponent.sub 0, ChunkComponent.subPatch 3]⟩

/-- Example: `re_chunk_000.pak.sub_000.pak.patch_004.pak`. -/
def exP4 : ChunkName :=
  ⟨[ChunkComponent.base 0, ChunkComponent.sub 0, ChunkComponent.subPatch 4]⟩

/-- Example: `re_chunk_000.pak.patch_002.pak` (a base-level patch). -/
def exBasePatch2 : ChunkName := ⟨[ChunkComponent.base 0, ChunkComponent.patch 2]⟩

/-- Example: `re_chunk_000.pak.patch_003.pak` (a base-level patch). -/
def exBasePatch3 : ChunkName := ⟨[ChunkComponent.base 0, ChunkComponent.patch 3]⟩

/-- Example: `re_chunk_000.pak.patch_001.pak.sub_000.pak.patch_005.pak`
(a parseable name whose patch id differs from a plain sub chunk's). -/
def exMixed : ChunkName :=
  ⟨[ChunkComponent.base 0, ChunkComponent.patch 1, ChunkComponent.sub 0,
    ChunkComponent.subPatch 5]⟩

/-! ## Claim C3 -/

/-- Claim C3 counterexample: for base-level patch names (no `Sub` component)
the code's higher-patch check never fires — removing
`re_chunk_000.pak.patch_002.pak` while `re_chunk_000.pak.patch_003.pak`
exists yields `DeleteFinal`, although another name of the series has a
strictly greater patch ordinal at the same (base, sub = none) position,
where the claim demands a placeholder. -/
theorem claim_removal_decision_counterexample :
    App.removalStep [exBasePatch2, exBasePatch3] exBasePatch2 =
      some (App.RemovalDecision.deleteFinal, [exBasePatch3]) ∧
    exBasePatch3 ∈ [exBasePatch2, exBasePatch3] ∧
    exBasePatch3 ≠ exBasePatch2 ∧
    exBasePatch3.major_id = exBasePatch2.major_id ∧
    exBasePatch3.sub_id = exBasePatch2.sub_id ∧
    specOrdinal exBasePatch2 = some 2 ∧
    specOrdinal exBasePatch3 = some 3 := by
  decide

/-- Claim C3 (amended): for chunk sets in which a `SubPatch` id implies a
`Sub` component (true of all parsed names) and candidates that carry a
`SubPatch` id whenever they carry a `Sub` id (so the unwrap cannot panic),
the decision is `DeleteFinal` iff no name in the set matches the candidate's
(base, sub) position with a strictly greater sub-patch ordinal at the Sub
level; base-level patch ordinals are never compared, so base-level
candidates always get `DeleteFinal`.  `DeleteFinal` removes the candidate
from the in-memory set, `DeletePlaceholder` keeps the set unchanged; the
`{patch 1, patch 2, patch 3}` scenario behaves as the claim describes. -/
theorem claim_removal_decision :
    (∀ (chunks : List ChunkName) (n : ChunkName),
      (∀ c ∈ chunks, (ChunkName.sub_patch_id c).isSome → (ChunkName.sub_id c).isSome) →
      ((ChunkName.sub_id n).isSome → (ChunkName.sub_patch_id n).isSome) →
      ∃ d chunks2, App.removalStep chunks n = some (d, chunks2) ∧
        (d = App.RemovalDecision.deleteFinal ↔
          ¬ ∃ c ∈ chunks, c.major_id = n.major_id ∧ c.sub_id = n.sub_id ∧
            ∃ pc pn, c.sub_patch_id = some pc ∧ n.sub_patch_id = some pn ∧ pn < pc) ∧
        (d = App.RemovalDecision.deleteFinal →
          chunks2 = chunks.filter (fun c => decide (c ≠ n))) ∧
        (d = App.RemovalDecision.deletePlaceholder → chunks2 = chunks)) ∧
    App.removalStep [exP1, exP2, exP3] exP2 =
      some (App.RemovalDecision.deletePlaceholder, [exP1, exP2, exP3]) ∧
    App.removalStep [exP1, exP2, exP3] exP3 =
      some (App.RemovalDecision.deleteFinal, [exP1, exP2]) ∧
    App.removalStep [exP1, exP2] exP2 =
      some (App.RemovalDecision.deleteFinal, [exP1]) := by
  refine ⟨?_, by decide, by decide, by decide⟩
  intro chunks n hc hn
  have hhp := has_higher_patches_eq chunks n hc hn
  unfold App.removalStep
  rw [hhp]
  cases hany : chunks.any (specHigherB n) with
  | true =>
    refine ⟨.deletePlaceholder, chunks, rfl, ?_, ?_, fun _ => rfl⟩
    · constructor
      · intro hd
        exact absurd hd (by simp)
      · intro hnex
        exfalso
        apply hnex
        obtain ⟨c, hcmem, hcb⟩ := List.any_eq_true.mp hany
        exact ⟨c, hcmem, (specHigherB_iff n c).mp hcb⟩
    · intro hd
      exact absurd hd (by simp)
  | false =>
    refine ⟨.deleteFinal, _, rfl, ?_, fun _ => rfl, ?_⟩
    · constructor
      · intro _
        rintro ⟨c, hcmem, hP⟩
        have hcb : specHigherB n c = true := (specHigherB_iff n c).mpr hP
        have : chunks.any (specHigherB n) = true := List.any_eq_true.mpr ⟨c, hcmem, hcb⟩
        rw [hany] at this
        exact absurd this (by simp)
      · intro _
        rfl
    · intro hd
      exact absurd hd (by simp)

/-- Witness for the amended claim C3: planning removal of `patch_002` from
the set `{patch_001, patch_003}` of its sub series. -/
theorem claim_removal_decision_witness :
    (∀ c ∈ [exP1, exP3], (ChunkName.sub_patch_id c).isSome →
      (ChunkName.sub_id c).isSome) ∧
    (∃ d chunks2, App.removalStep [exP1, exP3] exP2 = some (d, chunks2) ∧
      (d = App.RemovalDecision.deleteFinal ↔
        ¬ ∃ c ∈ [exP1, exP3], c.major_id = exP2.major_id ∧ c.sub_id = exP2.sub_id ∧
          ∃ pc pn, c.sub_patch_id = some pc ∧ exP2.sub_patch_id = some pn ∧ pn < pc) ∧
      (d = App.RemovalDecision.deleteFinal →
        chunks2 = [exP1, exP3].filter (fun c => decide (c ≠ exP2))) ∧
      (d = App.RemovalDecision.deletePlaceholder → chunks2 = [exP1, exP3])) :=
  ⟨by decide, claim_removal_decision.1 [exP1, exP3] exP2 (by decide) (by decide)⟩

/-! ## Claim C9 -/

/-- Claim C9 evaluated at the failing input: both names parse, so both are
legitimate results of the restore scan; with the sub chunk
`re_chunk_000.pak.sub_000.pak` as removal candidate (it has a `Sub` component
but no `SubPatch` component) and the sub patch
`re_chunk_000.pak.sub_000.pak.patch_001.pak` in the scanned set, the
higher-patch check reaches `chunk_name.sub_patch_id.unwrap()` on `None` and
panics (modelled by `none`). -/
theorem claim_restore_unwrap_panic :
    ChunkName.try_from_str ("re_chunk_000.pak.sub_000.pak".toList) = .ok exSub ∧
    ChunkName.try_from_str ("re_chunk_000.pak.sub_000.pak.patch_001.pak".toList) =
      .ok exP1 ∧
    ChunkName.sub_patch_id exSub = none ∧
    App.has_higher_patches [exSub, exP1] exSub = none := by
  decide

/-! ## Claim C4 -/

theorem le_foldr_max : ∀ {l : List Nat} {x : Nat}, x ∈ l → x ≤ l.foldr max 0 := by
  intro l
  induction l with
  | nil =>
    intro x hx
    simp at hx
  | cons a l ih =>
    intro x hx
    rcases List.mem_cons.mp hx with rfl | hx
    · show x ≤ max x (l.foldr max 0)
      exact le_max_left _ _
    · calc x ≤ l.foldr max 0 := ih hx
        _ ≤ max a (l.foldr max 0) := le_max_right _ _

theorem foldr_max_attained : ∀ l : List Nat, l.foldr max 0 = 0 ∨ l.foldr max 0 ∈ l := by
  intro l
  induction l with
  | nil => exact Or.inl rfl
  | cons a l ih =>
    show (max a (l.foldr max 0) = 0) ∨ max a (l.foldr max 0) ∈ a :: l
    rcases le_total (l.foldr max 0) a with hle | hle
    · rw [max_eq_left hle]
      exact Or.inr (List.mem_cons_self _ _)
    · rw [max_eq_right hle]
      rcases ih with h0 | hmem
      · exact Or.inl h0
      · exact Or.inr (List.mem_cons_of_mem _ hmem)

theorem foldr_max_perm {l₁ l₂ : List Nat} (p : l₁.Perm l₂) :
    l₁.foldr max 0 = l₂.foldr max 0 := by
  induction p with
  | nil => rfl
  | cons x _ ih => simp [List.foldr_cons, ih]
  | swap x y l =>
    show max y (max x (l.foldr max 0)) = max x (max y (l.foldr max 0))
    exact max_left_comm _ _ _
  | trans _ _ ih1 ih2 => exact ih1.trans ih2

/-- Claim C4 counterexample: against the spec's own `PatchSeries` (all names
sharing the candidate's base id and sub id), the code disagrees — it also
filters by `patch_id`.  For the parseable series member
`re_chunk_000.pak.patch_001.pak.sub_000.pak.patch_005.pak` (sub-patch
ordinal 5 in the candidate's (base, sub) series) the code allocates 1, not
1 + 5. -/
theorem claim_next_patch_id_counterexample :
    App.new_patch_id [exMixed] exSub = 1 ∧
    specSeriesMax [exMixed] exSub = 5 ∧
    App.new_patch_id [exMixed] exSub ≠ 1 + specSeriesMax [exMixed] exSub ∧
    ChunkName.try_from_str
      ("re_chunk_000.pak.patch_001.pak.sub_000.pak.patch_005.pak".toList) =
      .ok exMixed := by
  decide

/-- Claim C4 (amended): the allocated id is `1 + ` the greatest sub-patch
ordinal among the names agreeing with the candidate on base id, patch id
AND sub id (default 0 when none), computed in `u32` arithmetic which wraps
past `u32::MAX`: below that boundary it is strictly greater than every
sub-patch ordinal of the set, at a maximum of exactly `u32::MAX` it wraps
to 0; the maximum is 0 or attained in the set, the result is invariant
under permutation of the discovered names, the series with ordinals
{1,2,4} yields 5 and the empty series yields 1. -/
theorem claim_next_patch_id :
    (∀ (chunks : List ChunkName) (n c : ChunkName) (v : Nat), c ∈ chunks →
      c.major_id = n.major_id → c.patch_id = n.patch_id → c.sub_id = n.sub_id →
      c.sub_patch_id = some v → App.max_patch_id chunks n < u32Max →
      v < App.new_patch_id chunks n) ∧
    (∀ (chunks : List ChunkName) (n : ChunkName),
      App.max_patch_id chunks n = u32Max → App.new_patch_id chunks n = 0) ∧
    (∀ (chunks : List ChunkName) (n : ChunkName), App.max_patch_id chunks n = 0 ∨
      ∃ c ∈ chunks, c.major_id = n.major_id ∧ c.patch_id = n.patch_id ∧
        c.sub_id = n.sub_id ∧ c.sub_patch_id = some (App.max_patch_id chunks n)) ∧
    (∀ (chunks chunks2 : List ChunkName) (n : ChunkName), chunks.Perm chunks2 →
      App.new_patch_id chunks n = App.new_patch_id chunks2 n) ∧
    App.new_patch_id [exP1, exP2, exP4] exSub = 5 ∧
    App.new_patch_id [] exSub = 1 := by
  refine ⟨?_, ?_, ?_, ?_, by decide, by decide⟩
  · intro chunks n c v hcmem h1 h2 h3 h4 hbound
    have hfil : c ∈ chunks.filter fun c =>
        decide (c.major_id = n.major_id ∧ c.patch_id = n.patch_id ∧
          c.sub_id = n.sub_id) := by
      refine List.mem_filter.mpr ⟨hcmem, ?_⟩
      exact decide_eq_true ⟨h1, h2, h3⟩
    have hmem : v ∈ (chunks.filter fun c =>
        decide (c.major_id = n.major_id ∧ c.patch_id = n.patch_id ∧
          c.sub_id = n.sub_id)).filterMap ChunkName.sub_patch_id :=
      List.mem_filterMap.mpr ⟨c, hfil, h4⟩
    have := le_foldr_max hmem
    unfold App.max_patch_id at hbound
    unfold App.new_patch_id App.max_patch_id
    unfold u32Max at hbound ⊢
    omega
  · intro chunks n hmax
    unfold App.new_patch_id
    rw [hmax]
    unfold u32Max
    omega
  · intro chunks n
    rcases foldr_max_attained ((chunks.filter fun c =>
        decide (c.major_id = n.major_id ∧ c.patch_id = n.patch_id ∧
          c.sub_id = n.sub_id)).filterMap ChunkName.sub_patch_id) with h0 | hmem
    · exact Or.inl h0
    · right
      obtain ⟨c, hcf, hcv⟩ := List.mem_filterMap.mp hmem
      obtain ⟨hcmem, hdec⟩ := List.mem_filter.mp hcf
      obtain ⟨h1, h2, h3⟩ := of_decide_eq_true hdec
      exact ⟨c, hcmem, h1, h2, h3, hcv⟩
  · intro chunks chunks2 n hperm
    unfold App.new_patch_id App.max_patch_id
    have hp := hperm.filter (fun c =>
      decide (c.major_id = n.major_id ∧ c.patch_id = n.patch_id ∧ c.sub_id = n.sub_id))
    have := foldr_max_perm (hp.filterMap ChunkName.sub_patch_id)
    rw [this]

/-- Witness for the amended claim C4: the freshness bound applied to the
ordinal-2 member of the {1,2,4} series, whose maximum 4 is below
`u32::MAX`. -/
theorem claim_next_patch_id_witness :
    exP2 ∈ [exP1, exP2, exP4] ∧
    App.max_patch_id [exP1, exP2, exP4] exSub < u32Max ∧
    2 < App.new_patch_id [exP1, exP2, exP4] exSub :=
  ⟨by decide, by decide,
    claim_next_patch_id.1 [exP1, exP2, exP4] exSub exP2 2 (by decide) (by decide)
      (by decide) (by decide) (by decide) (by decide)⟩

/-! ## Provenance metadata (src/metadata.rs) -/

/-- `PakMetadata` from src/metadata.rs. -/
structure PakMetadata : Type where
  version : Nat
  is_full_package : Bool
deriving DecidableEq, Repr

/-- `PakMetadata::new`: version is fixed at 1. -/
def PakMetadata.new (b : Bool) : PakMetadata := ⟨1, b⟩

/-- Opening brace of the JSON object. -/
def obrace : Char := Char.ofNat 123

/-- Closing brace of the JSON object. -/
def cbrace : Char := Char.ofNat 125

/-- The serialized JSON up to the version value (serde_json field order is
declaration order: `version` first). -/
def jsonVerKey : Str := obrace :: "\"version\":".toList

/-- The serialized JSON between the version value and the flag value. -/
def jsonFullKey : Str := ",\"is_full_package\":".toList

/-- JSON boolean literal `true`. -/
def trueLit : Str := "true".toList

/-- JSON boolean literal `false`. -/
def falseLit : Str := "false".toList

/-- `serde_json::to_string` on a `PakMetadata` (canonical output form). -/
def PakMetadata.serialize (m : PakMetadata) : Str :=
  jsonVerKey ++ natToDigits m.version ++ jsonFullKey ++
    (if m.is_full_package then trueLit else falseLit) ++ [cbrace]

/-- Strip a prefix from a string, if present. -/
def stripPfx (p s : Str) : Option Str :=
  if p.isPrefixOf s then some (s.drop p.length) else none

/-- `serde_json::from_slice::<PakMetadata>` on the canonical serialized
form: parses the fixed object skeleton with a `u32` version and a boolean
flag; anything else is a deserialization error (`none`). -/
def PakMetadata.deserialize (s : Str) : Option PakMetadata :=
  match stripPfx jsonVerKey s with
  | none => none
  | some s1 =>
    match parseDigits (s1.takeWhile isDigitCh) with
    | none => none
    | some v =>
      if v ≤ u32Max then
        match stripPfx jsonFullKey (s1.drop (s1.takeWhile isDigitCh).length) with
        | none => none
        | some s2 =>
          if s2 = trueLit ++ [cbrace] then some ⟨v, true⟩
          else if s2 = falseLit ++ [cbrace] then some ⟨v, false⟩
          else none
      else none

/-- One entry of a pak container: its path-hash key and payload bytes. -/
structure PakEntryM : Type where
  hash : Nat
  data : Str
deriving DecidableEq, Repr

/-- `ree_pak_core::write::PakWriter`: capacity hint given at creation,
entries in write order, `finish` seals the container. -/
structure PakWriterM : Type where
  capacity : Nat
  entries : List PakEntryM
  finished : Bool
deriving DecidableEq, Repr

/-- `PakWriter::new(out_file, capacity)`. -/
def PakWriterM.new (cap : Nat) : PakWriterM := ⟨cap, [], false⟩

/-- `writer.start_file(name, options)` followed by `writer.write_all(data)`
(the `write_to_pak` helper of src/app.rs): appends one entry. -/
def PakWriterM.write_file (w : PakWriterM) (hash : Nat) (data : Str) : PakWriterM :=
  { w with entries := w.entries ++ [⟨hash, data⟩] }

/-- `PakWriter::finish`. -/
def PakWriterM.finish (w : PakWriterM) : PakWriterM := { w with finished := true }

/-- `PakMetadata::write_to_pak`: the record is serialized and stored under
the reserved key `__TEX_DECOMPRESSOR_METADATA__`; `keyHash` stands for
`FileNameFull::new(METADATA_KEY).hash_mixed()`, the externally computed
identifier of that reserved name, kept as a parameter. -/
def PakMetadata.write_to_pak (m : PakMetadata) (keyHash : Nat) (w : PakWriterM) :
    PakWriterM :=
  w.write_file keyHash m.serialize

/-- A `serde_json` deserialization failure (propagated by `?` in the
source). -/
inductive SerdeErr : Type where
  | invalidJson
deriving DecidableEq, Repr

/-- `PakMetadata::from_pak_archive`: look up the entry whose hash equals the
reserved key's hash; absent means `Ok(None)`, present-but-unparseable is an
error, otherwise the parsed record. -/
def PakMetadata.from_pak_archive (keyHash : Nat) (entries : List PakEntryM) :
    Except SerdeErr (Option PakMetadata) :=
  match entries.find? (fun e => e.hash == keyHash) with
  | some e =>
    match PakMetadata.deserialize e.data with
    | some m => .ok (some m)
    | none => .error .invalidJson
  | none => .ok none

theorem deserialize_serialize_new (b : Bool) :
    PakMetadata.deserialize (PakMetadata.new b).serialize = some (PakMetadata.new b) := by
  cases b <;> decide

/-! ## Claim C7 -/

/-- Claim C7: writing the provenance record `{version: 1, is_full_package}`
into a container (before any other writer appends) and reading it back from
the resulting entry set yields an equal record; reading from a container
that never had the reserved entry written yields `Ok(None)`, not an
error. -/
theorem claim_metadata_roundtrip :
    (∀ (keyHash : Nat) (b : Bool) (w : PakWriterM) (post : List PakEntryM),
      (∀ e ∈ w.entries, e.hash ≠ keyHash) →
      PakMetadata.from_pak_archive keyHash
        (((PakMetadata.new b).write_to_pak keyHash w).entries ++ post) =
        .ok (some (PakMetadata.new b))) ∧
    (∀ (keyHash : Nat) (entries : List PakEntryM),
      (∀ e ∈ entries, e.hash ≠ keyHash) →
      PakMetadata.from_pak_archive keyHash entries = .ok none) := by
  constructor
  · intro keyHash b w post h
    unfold PakMetadata.from_pak_archive
    unfold PakMetadata.write_to_pak PakWriterM.write_file
    have hpre : (w.entries.find? fun e => e.hash == keyHash) = none := by
      rw [List.find?_eq_none]
      intro e he
      simp only [beq_iff_eq]
      exact h e he
    have hsplit : (w.entries ++ [PakEntryM.mk keyHash (PakMetadata.new b).serialize]) ++
        post = w.entries ++ (PakEntryM.mk keyHash (PakMetadata.new b).serialize :: post) := by
      simp
    rw [hsplit, List.find?_append, hpre]
    rw [List.find?_cons]
    have hkey : ((PakEntryM.mk keyHash (PakMetadata.new b).serialize).hash == keyHash) =
        true := by simp
    rw [hkey]
    simp only [Option.or]
    rw [deserialize_serialize_new b]
  · intro keyHash entries h
    unfold PakMetadata.from_pak_archive
    have hnone : (entries.find? fun e => e.hash == keyHash) = none := by
      rw [List.find?_eq_none]
      intro e he
      simp only [beq_iff_eq]
      exact h e he
    rw [hnone]

/-- Witness for claim C7: a fresh writer with key hash 7, full-package flag
`true`, no later entries; and the absent case on the empty container. -/
theorem claim_metadata_roundtrip_witness :
    (∀ e ∈ (PakWriterM.new 3).entries, e.hash ≠ 7) ∧
    PakMetadata.from_pak_archive 7
      (((PakMetadata.new true).write_to_pak 7 (PakWriterM.new 3)).entries ++ []) =
      .ok (some (PakMetadata.new true)) ∧
    PakMetadata.from_pak_archive 7 [] = .ok none :=
  ⟨fun e he => absurd he (List.not_mem_nil e),
    claim_metadata_roundtrip.1 7 true (PakWriterM.new 3) []
      (fun e he => absurd he (List.not_mem_nil e)),
    claim_metadata_roundtrip.2 7 [] (fun e he => absurd he (List.not_mem_nil e))⟩

/-! ## The rewrite pipeline (App::process_chunk, src/app.rs) -/

namespace App

/-- Failure of the external tex transform (`Tex::from_reader`,
`batch_decompress`, `as_bytes`). -/
inductive TexError : Type where
  | transformFailed
deriving DecidableEq, Repr

/-- The per-entry body of the parallel loop of `App::process_chunk`: a
non-tex entry's payload is copied verbatim, a tex entry goes through the
fallible decode/decompress transform.  Entries are identified by their
path-hash; `payload` is the byte content obtained through the shared
archive reader. -/
def entryStep (isTex : Nat → Bool) (transform : Nat → Except TexError Str)
    (payload : Nat → Str) (h : Nat) : Except TexError PakEntryM :=
  if isTex h then
    match transform h with
    | .ok bs => .ok ⟨h, bs⟩
    | .error e => .error e
  else .ok ⟨h, payload h⟩

/-- Sequential rendition of `entries.par_iter().try_for_each(...)` (all
writes are serialized through the single mutex-guarded writer, and
`try_for_each` stops dispatching after a failure): the entries written
before the first failure, and that failure. -/
def pipelineLoop (isTex : Nat → Bool) (transform : Nat → Except TexError Str)
    (payload : Nat → Str) : List Nat → List PakEntryM × Option TexError
  | [] => ([], none)
  | h :: rest =>
    match entryStep isTex transform payload h with
    | .error e => ([], some e)
    | .ok w =>
      match pipelineLoop isTex transform payload rest with
      | (ws, r) => (w :: ws, r)

/-- The entries of the longest error-free prefix, transformed. -/
def successWrites (isTex : Nat → Bool) (transform : Nat → Except TexError Str)
    (payload : Nat → Str) (l : List Nat) : List PakEntryM :=
  (l.takeWhile fun h => (entryStep isTex transform payload h).isOk).filterMap
    fun h => (entryStep isTex transform payload h).toOption

/-- The first transform failure in dispatch order, if any. -/
def firstFailure (isTex : Nat → Bool) (transform : Nat → Except TexError Str)
    (payload : Nat → Str) (l : List Nat) : Option TexError :=
  match l.dropWhile fun h => (entryStep isTex transform payload h).isOk with
  | [] => none
  | h :: _ =>
    match entryStep isTex transform payload h with
    | .error e => some e
    | .ok _ => none

/-- The observable outcome of one `process_chunk` run: the destination
writer, what was printed to stderr about a failure, and the returned
`Result`. -/
structure ProcessOutcome : Type where
  writer : PakWriterM
  loggedError : Option TexError
  returned : Except TexError Unit
deriving DecidableEq, Repr

/-- `App::process_chunk` (src/app.rs lines 97-217), sequentialized: entries
are selected (full-package keeps all, otherwise only tex entries), the
destination writer is created with capacity `selected + 1`, the provenance
record is written first, the parallel loop writes transformed entries until
the first failure, a failure is printed to stderr (`loggedError`) but the
writer is finalized either way — and the function returns `Ok(())`
regardless. -/
def process_chunk (keyHash : Nat) (isTex : Nat → Bool)
    (transform : Nat → Except TexError Str) (payload : Nat → Str)
    (srcEntries : List Nat) (use_full_package_mode : Bool) : ProcessOutcome :=
  let entries := if use_full_package_mode then srcEntries else srcEntries.filter isTex
  let pakWriter := (PakMetadata.new use_full_package_mode).write_to_pak keyHash
    (PakWriterM.new (entries.length + 1))
  let res := pipelineLoop isTex transform payload entries
  let written := res.1.foldl (fun w e => w.write_file e.hash e.data) pakWriter
  ⟨written.finish, res.2, .ok ()⟩

theorem pipelineLoop_spec (isTex : Nat → Bool)
    (transform : Nat → Except TexError Str) (payload : Nat → Str) :
    ∀ l : List Nat, pipelineLoop isTex transform payload l =
      (successWrites isTex transform payload l,
        firstFailure isTex transform payload l) := by
  intro l
  induction l with
  | nil => rfl
  | cons h rest ih =>
    rcases hstep : entryStep isTex transform payload h with e | w
    · have hok : (entryStep isTex transform payload h).isOk = false := by
        rw [hstep]
        rfl
      show (match entryStep isTex transform payload h with
        | .error e => (([] : List PakEntryM), some e)
        | .ok w =>
          match pipelineLoop isTex transform payload rest with
          | (ws, r) => (w :: ws, r)) = _
      rw [hstep]
      unfold successWrites firstFailure
      rw [List.takeWhile_cons, List.dropWhile_cons, hok]
      simp only [Bool.false_eq_true, if_false, List.filterMap_nil]
      rw [hstep]
    · have hok : (entryStep isTex transform payload h).isOk = true := by
        rw [hstep]
        rfl
      show (match entryStep isTex transform payload h with
        | .error e => (([] : List PakEntryM), some e)
        | .ok w =>
          match pipelineLoop isTex transform payload rest with
          | (ws, r) => (w :: ws, r)) = _
      rw [hstep, ih]
      unfold successWrites firstFailure
      rw [List.takeWhile_cons, List.dropWhile_cons, hok]
      simp only [if_true, eq_self_iff_true, List.filterMap_cons]
      rw [hstep]
      simp [Except.toOption]

theorem foldl_write_file : ∀ (es : List PakEntryM) (w : PakWriterM),
    es.foldl (fun w e => w.write_file e.hash e.data) w =
      ⟨w.capacity, w.entries ++ es, w.finished⟩ := by
  intro es
  induction es with
  | nil =>
    intro w
    cases w
    simp
  | cons e es ih =>
    intro w
    show es.foldl _ (w.write_file e.hash e.data) = _
    rw [ih]
    unfold PakWriterM.write_file
    cases e
    simp

end App

/-! ## Claim C1 -/

/-- Claim C1 counterexample: a run whose only selected entry's transform
fails logs the failure and finalizes the partial output, but `process_chunk`
returns `Ok(())` — the failure is not reported to the caller. -/
theorem claim_pipeline_failure_counterexample :
    (App.process_chunk 0 (fun _ => true) (fun _ => .error .transformFailed)
        (fun _ => []) [1] false).loggedError = some .transformFailed ∧
    (App.process_chunk 0 (fun _ => true) (fun _ => .error .transformFailed)
        (fun _ => []) [1] false).returned = .ok () ∧
    (App.process_chunk 0 (fun _ => true) (fun _ => .error .transformFailed)
        (fun _ => []) [1] false).writer.finished = true := by
  refine ⟨rfl, rfl, rfl⟩

/-- Claim C1 (amended): when some selected entry's transform fails, the
pipeline stops dispatching new work — the destination holds exactly the
provenance entry followed by the entries successfully transformed before
the first failure, nothing already written is discarded, the destination is
finalized (with its capacity still reserving all selected entries plus the
provenance slot), and the failure is printed to stderr; but the function
returns `Ok(())` to the caller instead of propagating the error. -/
theorem claim_pipeline_failure (keyHash : Nat) (isTex : Nat → Bool)
    (transform : Nat → Except App.TexError Str) (payload : Nat → Str)
    (srcEntries : List Nat) (full : Bool)
    (hfail : App.firstFailure isTex transform payload
      (if full then srcEntries else srcEntries.filter isTex) ≠ none) :
    (App.process_chunk keyHash isTex transform payload srcEntries full).writer.finished =
      true ∧
    (App.process_chunk keyHash isTex transform payload srcEntries full).writer.entries =
      PakEntryM.mk keyHash (PakMetadata.new full).serialize ::
        App.successWrites isTex transform payload
          (if full then srcEntries else srcEntries.filter isTex) ∧
    (App.process_chunk keyHash isTex transform payload srcEntries full).writer.capacity =
      (if full then srcEntries else srcEntries.filter isTex).length + 1 ∧
    (App.process_chunk keyHash isTex transform payload srcEntries full).loggedError =
      App.firstFailure isTex transform payload
        (if full then srcEntries else srcEntries.filter isTex) ∧
    (App.process_chunk keyHash isTex transform payload srcEntries full).loggedError ≠
      none ∧
    (App.process_chunk keyHash isTex transform payload srcEntries full).returned =
      .ok () := by
  simp only [App.process_chunk]
  rw [App.pipelineLoop_spec, App.foldl_write_file]
  unfold PakMetadata.write_to_pak PakWriterM.write_file PakWriterM.new PakWriterM.finish
  refine ⟨rfl, by simp, rfl, rfl, hfail, trivial⟩

/-- Witness for the amended claim C1: the single-entry failing run. -/
theorem claim_pipeline_failure_witness :
    App.firstFailure (fun _ => true) (fun _ => .error App.TexError.transformFailed)
      (fun _ => []) (if false then [1] else [1].filter (fun _ => true)) ≠ none ∧
    (App.process_chunk 0 (fun _ => true) (fun _ => .error .transformFailed)
        (fun _ => []) [1] false).returned = .ok () :=
  ⟨by decide,
    (claim_pipeline_failure 0 (fun _ => true)
      (fun _ => .error App.TexError.transformFailed) (fun _ => []) [1] false
      (by decide)).2.2.2.2.2⟩

/-! ## Error classification of the name parser (claim C8) -/

theorem excl_chunk_dlc {h : Str} (h1 : chunkPfx.isPrefixOf h = true)
    (h2 : dlcPfx.isPrefixOf h = true) : False := by
  rcases prefix_comparable h1 h2 with hc | hc <;> exact absurd hc (by decide)

theorem excl_chunk_patch {h : Str} (h1 : chunkPfx.isPrefixOf h = true)
    (h2 : patchPfx.isPrefixOf h = true) : False := by
  rcases prefix_comparable h1 h2 with hc | hc <;> exact absurd hc (by decide)

theorem excl_chunk_sub {h : Str} (h1 : chunkPfx.isPrefixOf h = true)
    (h2 : subPfx.isPrefixOf h = true) : False := by
  rcases prefix_comparable h1 h2 with hc | hc <;> exact absurd hc (by decide)

theorem excl_dlc_patch {h : Str} (h1 : dlcPfx.isPrefixOf h = true)
    (h2 : patchPfx.isPrefixOf h = true) : False := by
  rcases prefix_comparable h1 h2 with hc | hc <;> exact absurd hc (by decide)

theorem excl_dlc_sub {h : Str} (h1 : dlcPfx.isPrefixOf h = true)
    (h2 : subPfx.isPrefixOf h = true) : False := by
  rcases prefix_comparable h1 h2 with hc | hc <;> exact absurd hc (by decide)

theorem excl_patch_sub {h : Str} (h1 : patchPfx.isPrefixOf h = true)
    (h2 : subPfx.isPrefixOf h = true) : False := by
  rcases prefix_comparable h1 h2 with hc | hc <;> exact absurd hc (by decide)

/-- The claim's "leading token with an unrecognized prefix". -/
def unrecognizedTok (h : Str) : Prop :=
  ¬ chunkPfx.isPrefixOf h = true ∧ ¬ dlcPfx.isPrefixOf h = true ∧
  ¬ patchPfx.isPrefixOf h = true ∧ ¬ subPfx.isPrefixOf h = true

/-- The claim's "numeric token whose id part is not a valid number". -/
def numericBadTok (h : Str) : Prop :=
  (chunkPfx.isPrefixOf h = true ∧ parseU32 (h.drop chunkPfx.length) = none) ∨
  (patchPfx.isPrefixOf h = true ∧ parseU32 (h.drop patchPfx.length) = none) ∨
  (subPfx.isPrefixOf h = true ∧ parseU32 (h.drop subPfx.length) = none)

instance (h : Str) : Decidable (unrecognizedTok h) := by
  unfold unrecognizedTok
  infer_instance

instance (h : Str) : Decidable (numericBadTok h) := by
  unfold numericBadTok
  infer_instance

theorem parse_component_invalidComponent_iff (h : Str) :
    ChunkName.parse_component h = .error .invalidComponent ↔ unrecognizedTok h := by
  unfold ChunkName.parse_component
  by_cases c1 : chunkPfx.isPrefixOf h = true
  · rw [if_pos c1]
    constructor
    · intro hx
      rcases hu : parseU32 (h.drop chunkPfx.length) with _ | v <;> rw [hu] at hx <;>
        simp at hx
    · rintro ⟨hnc, -⟩
      exact absurd c1 hnc
  · rw [if_neg c1]
    by_cases c2 : dlcPfx.isPrefixOf h = true
    · rw [if_pos c2]
      constructor
      · intro hx
        simp at hx
      · rintro ⟨-, hnd, -⟩
        exact absurd c2 hnd
    · rw [if_neg c2]
      by_cases c3 : patchPfx.isPrefixOf h = true
      · rw [if_pos c3]
        constructor
        · intro hx
          rcases hu : parseU32 (h.drop patchPfx.length) with _ | v <;> rw [hu] at hx <;>
            simp at hx
        · rintro ⟨-, -, hnp, -⟩
          exact absurd c3 hnp
      · rw [if_neg c3]
        by_cases c4 : subPfx.isPrefixOf h = true
        · rw [if_pos c4]
          constructor
          · intro hx
            rcases hu : parseU32 (h.drop subPfx.length) with _ | v <;> rw [hu] at hx <;>
              simp at hx
          · rintro ⟨-, -, -, hns⟩
            exact absurd c4 hns
        · rw [if_neg c4]
          constructor
          · intro _
            exact ⟨c1, c2, c3, c4⟩
          · intro _
            rfl

theorem parse_component_invalidNumericId_iff (h : Str) :
    ChunkName.parse_component h = .error .invalidNumericId ↔ numericBadTok h := by
  unfold ChunkName.parse_component
  by_cases c1 : chunkPfx.isPrefixOf h = true
  · rw [if_pos c1]
    rcases hu : parseU32 (h.drop chunkPfx.length) with _ | v
    · constructor
      · intro _
        exact Or.inl ⟨c1, hu⟩
      · intro _
        rfl
    · constructor
      · intro hx
        simp at hx
      · rintro (⟨-, hbad⟩ | ⟨hp, -⟩ | ⟨hs, -⟩)
        · rw [hu] at hbad
          exact absurd hbad (by simp)
        · exact (excl_chunk_patch c1 hp).elim
        · exact (excl_chunk_sub c1 hs).elim
  · rw [if_neg c1]
    by_cases c2 : dlcPfx.isPrefixOf h = true
    · rw [if_pos c2]
      constructor
      · intro hx
        simp at hx
      · rintro (⟨hc, -⟩ | ⟨hp, -⟩ | ⟨hs, -⟩)
        · exact absurd hc c1
        · exact (excl_dlc_patch c2 hp).elim
        · exact (excl_dlc_sub c2 hs).elim
    · rw [if_neg c2]
      by_cases c3 : patchPfx.isPrefixOf h = true
      · rw [if_pos c3]
        rcases hu : parseU32 (h.drop patchPfx.length) with _ | v
        · constructor
          · intro _
            exact Or.inr (Or.inl ⟨c3, hu⟩)
          · intro _
            rfl
        · constructor
          · intro hx
            simp at hx
          · rintro (⟨hc, -⟩ | ⟨-, hbad⟩ | ⟨hs, -⟩)
            · exact absurd hc c1
            · rw [hu] at hbad
              exact absurd hbad (by simp)
            · exact (excl_patch_sub c3 hs).elim
      · rw [if_neg c3]
        by_cases c4 : subPfx.isPrefixOf h = true
        · rw [if_pos c4]
          rcases hu : parseU32 (h.drop subPfx.length) with _ | v
          · constructor
            · intro _
              exact Or.inr (Or.inr ⟨c4, hu⟩)
            · intro _
              rfl
          · constructor
            · intro hx
              simp at hx
            · rintro (⟨hc, -⟩ | ⟨hp, -⟩ | ⟨-, hbad⟩)
              · exact absurd hc c1
              · exact absurd hp c3
              · rw [hu] at hbad
                exact absurd hbad (by simp)
        · rw [if_neg c4]
          constructor
          · intro hx
            simp at hx
          · rintro (⟨hc, -⟩ | ⟨hp, -⟩ | ⟨hs, -⟩)
            · exact absurd hc c1
            · exact absurd hp c3
            · exact absurd hs c4

theorem parse_component_ne_invalidFormat (h : Str) :
    ChunkName.parse_component h ≠ .error .invalidFormat := by
  unfold ChunkName.parse_component
  split_ifs with c1 c2 c3 c4
  · rcases hu : parseU32 (h.drop chunkPfx.length) with _ | v <;> simp
  · simp
  · rcases hu : parseU32 (h.drop patchPfx.length) with _ | v <;> simp
  · rcases hu : parseU32 (h.drop subPfx.length) with _ | v <;> simp
  · simp

theorem exceptIsOk_iff {α β : Type} {x : Except α β} :
    x.isOk = true ↔ ∃ b, x = .ok b := by
  cases x <;> simp [Except.isOk, Except.toBool]

theorem componentsLoop_ok_of_all :
    ∀ (heads : List Str) (hs : Bool),
      (∀ h ∈ heads, (ChunkName.parse_component h).isOk = true) →
      ∃ comps, ChunkName.componentsLoop heads hs = .ok comps := by
  intro heads
  induction heads with
  | nil =>
    intro hs _
    exact ⟨[], rfl⟩
  | cons h0 rest ih =>
    intro hs hall
    obtain ⟨raw, hraw⟩ := exceptIsOk_iff.mp (hall h0 (List.mem_cons_self _ _))
    have hrest := fun h hm => hall h (List.mem_cons_of_mem h0 hm)
    unfold ChunkName.componentsLoop
    rw [hraw]
    cases raw with
    | major id =>
      obtain ⟨tail, htail⟩ := ih hs hrest
      rw [htail]
      exact ⟨_, rfl⟩
    | dlc s =>
      obtain ⟨tail, htail⟩ := ih hs hrest
      rw [htail]
      exact ⟨_, rfl⟩
    | sub id =>
      obtain ⟨tail, htail⟩ := ih true hrest
      rw [htail]
      exact ⟨_, rfl⟩
    | patch id =>
      obtain ⟨tail, htail⟩ := ih hs hrest
      rw [htail]
      exact ⟨_, rfl⟩

theorem componentsLoop_error_of_firstBad :
    ∀ (heads : List Str) (hs : Bool) (h : Str) (rest : List Str) (e : ParseErr),
      heads.dropWhile (fun x => (ChunkName.parse_component x).isOk) = h :: rest →
      ChunkName.parse_component h = .error e →
      ChunkName.componentsLoop heads hs = .error e := by
  intro heads
  induction heads with
  | nil =>
    intro hs h rest e hdrop _
    simp at hdrop
  | cons h0 tl ih =>
    intro hs h rest e hdrop herr
    rw [List.dropWhile_cons] at hdrop
    by_cases hok : (ChunkName.parse_component h0).isOk = true
    · rw [if_pos hok] at hdrop
      obtain ⟨raw, hraw⟩ := exceptIsOk_iff.mp hok
      unfold ChunkName.componentsLoop
      rw [hraw]
      cases raw with
      | major id =>
        rw [ih hs h rest e hdrop herr]
        rfl
      | dlc s =>
        rw [ih hs h rest e hdrop herr]
        rfl
      | sub id =>
        rw [ih true h rest e hdrop herr]
        rfl
      | patch id =>
        rw [ih hs h rest e hdrop herr]
        rfl
    · rw [if_neg hok] at hdrop
      injection hdrop with h1 h2
      subst h1
      unfold ChunkName.componentsLoop
      rw [herr]

/-- The leading tokens of a candidate name (first element of each
token/extension pair). -/
def claimTokens (t : Str) : List Str := (pairUp (splitOn dotChar t)).map Prod.fst

/-- The claim's format-error condition: an odd (or zero) number of
dot-separated tokens, or some extension token differing from `pak`. -/
def condFormat (t : Str) : Prop :=
  (splitOn dotChar t).length % 2 = 1 ∨ (splitOn dotChar t).length = 0 ∨
    ∃ p ∈ pairUp (splitOn dotChar t), p.2 ≠ pakStr

instance (t : Str) : Decidable (condFormat t) := by
  unfold condFormat
  infer_instance

theorem condFormat_iff (t : Str) :
    condFormat t ↔
      (((splitOn dotChar t).length < 2 ∨ (splitOn dotChar t).length % 2 ≠ 0) ∨
        ¬ ((pairUp (splitOn dotChar t)).all fun p => decide (p.2 = pakStr)) = true) := by
  have hpos : 1 ≤ (splitOn dotChar t).length := by
    have hne := splitOn_ne_nil dotChar t
    cases hsp : splitOn dotChar t with
    | nil => exact absurd hsp hne
    | cons a l => simp
  unfold condFormat
  constructor
  · rintro (hodd | hzero | ⟨p, hp, hne⟩)
    · exact Or.inl (Or.inr (by omega))
    · omega
    · right
      simp only [List.all_eq_true, decide_eq_true_eq, not_forall]
      exact ⟨p, hp, hne⟩
  · rintro ((hlt | hodd) | hall)
    · left
      omega
    · left
      omega
    · right
      right
      simp only [List.all_eq_true, decide_eq_true_eq, not_forall] at hall
      obtain ⟨p, hp, hne⟩ := hall
      exact ⟨p, hp, hne⟩

theorem try_from_str_eq_loop {t : Str} (h : ¬ condFormat t) :
    ChunkName.try_from_str t =
      (ChunkName.componentsLoop (claimTokens t) false).map fun comps => ⟨comps⟩ := by
  have h1 : ¬((splitOn dotChar t).length < 2 ∨ (splitOn dotChar t).length % 2 ≠ 0) :=
    fun hx => h ((condFormat_iff t).mpr (Or.inl hx))
  have h2 : ((pairUp (splitOn dotChar t)).all fun p => decide (p.2 = pakStr)) = true := by
    by_contra hx
    exact h ((condFormat_iff t).mpr (Or.inr hx))
  unfold ChunkName.try_from_str
  rw [if_neg h1, if_neg (by simp [h2])]
  rfl

theorem componentsLoop_error_src :
    ∀ (heads : List Str) (hs : Bool) (e : ParseErr),
      ChunkName.componentsLoop heads hs = .error e →
      ∃ h ∈ heads, ChunkName.parse_component h = .error e := by
  intro heads
  induction heads with
  | nil =>
    intro hs e hloop
    simp [ChunkName.componentsLoop] at hloop
  | cons h0 tl ih =>
    intro hs e hloop
    unfold ChunkName.componentsLoop at hloop
    rcases hpc : ChunkName.parse_component h0 with e0 | raw
    · rw [hpc] at hloop
      simp only [Except.error.injEq] at hloop
      subst hloop
      exact ⟨h0, List.mem_cons_self _ _, hpc⟩
    · rw [hpc] at hloop
      cases raw with
      | major id =>
        rcases hrec : ChunkName.componentsLoop tl hs with e1 | tail
        · rw [hrec] at hloop
          simp only [Except.map, Except.error.injEq] at hloop
          subst hloop
          obtain ⟨h, hm, hp⟩ := ih hs e1 hrec
          exact ⟨h, List.mem_cons_of_mem _ hm, hp⟩
        · rw [hrec] at hloop
          exact absurd hloop (by simp [Except.map])
      | dlc s =>
        rcases hrec : ChunkName.componentsLoop tl hs with e1 | tail
        · rw [hrec] at hloop
          simp only [Except.map, Except.error.injEq] at hloop
          subst hloop
          obtain ⟨h, hm, hp⟩ := ih hs e1 hrec
          exact ⟨h, List.mem_cons_of_mem _ hm, hp⟩
        · rw [hrec] at hloop
          exact absurd hloop (by simp [Except.map])
      | sub id =>
        rcases hrec : ChunkName.componentsLoop tl true with e1 | tail
        · rw [hrec] at hloop
          simp only [Except.map, Except.error.injEq] at hloop
          subst hloop
          obtain ⟨h, hm, hp⟩ := ih true e1 hrec
          exact ⟨h, List.mem_cons_of_mem _ hm, hp⟩
        · rw [hrec] at hloop
          exact absurd hloop (by simp [Except.map])
      | patch id =>
        rcases hrec : ChunkName.componentsLoop tl hs with e1 | tail
        · rw [hrec] at hloop
          simp only [Except.map, Except.error.injEq] at hloop
          subst hloop
          obtain ⟨h, hm, hp⟩ := ih hs e1 hrec
          exact ⟨h, List.mem_cons_of_mem _ hm, hp⟩
        · rw [hrec] at hloop
          exact absurd hloop (by simp [Except.map])

/-! ## Claim C8 -/

/-- The claim C8 statement at one input text, as frozen: each error class
characterized by its own input-global condition, success otherwise. -/
def claimC8At (t : Str) : Prop :=
  (ChunkName.try_from_str t = .error .invalidFormat ↔ condFormat t) ∧
  (ChunkName.try_from_str t = .error .invalidComponent ↔
    ∃ h ∈ claimTokens t, unrecognizedTok h) ∧
  (ChunkName.try_from_str t = .error .invalidNumericId ↔
    ∃ h ∈ claimTokens t, numericBadTok h) ∧
  ((∃ n, ChunkName.try_from_str t = .ok n) ↔
    ¬(condFormat t ∨ (∃ h ∈ claimTokens t, unrecognizedTok h) ∨
      ∃ h ∈ claimTokens t, numericBadTok h))

/-- Claim C8 counterexample: on `patch_x.pak.bogus.pak` the parser stops at
the first failing leading token (`patch_x`: recognized numeric prefix, bad
id) with the numeric-id error, although a later leading token (`bogus`) has
an unrecognized prefix — refuting the claim's "invalid-component exactly
when some leading token has an unrecognized prefix". -/
theorem claim_parse_errors_counterexample :
    ChunkName.try_from_str ("patch_x.pak.bogus.pak".toList) =
      .error .invalidNumericId ∧
    (∃ h ∈ claimTokens ("patch_x.pak.bogus.pak".toList), unrecognizedTok h) ∧
    ¬ claimC8At ("patch_x.pak.bogus.pak".toList) := by
  refine ⟨by decide, by decide, ?_⟩
  intro hcl
  have hcomp := hcl.2.1.mpr (by decide)
  exact absurd hcomp (by decide)

/-- Claim C8 (amended): `InvalidFormat` is returned exactly when the number
of dot-separated tokens is odd (or zero) or some extension token is not
`pak`; otherwise the outcome is decided by the first leading token that
fails to parse, scanning left to right: no failing token means success, and
the first failing token yields `InvalidComponent` exactly when its prefix is
unrecognized, `InvalidNumericId` exactly when it has a numeric prefix whose
id part does not parse as a `u32`. -/
theorem claim_parse_errors (t : Str) :
    (ChunkName.try_from_str t = .error .invalidFormat ↔ condFormat t) ∧
    (¬ condFormat t →
      ((claimTokens t).dropWhile (fun x => (ChunkName.parse_component x).isOk) = [] →
        ∃ n, ChunkName.try_from_str t = .ok n) ∧
      (∀ (h : Str) (rest : List Str) (e : ParseErr),
        (claimTokens t).dropWhile (fun x => (ChunkName.parse_component x).isOk) =
          h :: rest →
        ChunkName.parse_component h = .error e →
        ChunkName.try_from_str t = .error e)) ∧
    (∀ h : Str, ChunkName.parse_component h = .error .invalidComponent ↔
      unrecognizedTok h) ∧
    (∀ h : Str, ChunkName.parse_component h = .error .invalidNumericId ↔
      numericBadTok h) := by
  refine ⟨?_, ?_, parse_component_invalidComponent_iff,
    parse_component_invalidNumericId_iff⟩
  · constructor
    · intro herr
      by_contra hcond
      rw [try_from_str_eq_loop hcond] at herr
      rcases hloop : ChunkName.componentsLoop (claimTokens t) false with e | comps
      · rw [hloop] at herr
        simp only [Except.map, Except.error.injEq] at herr
        subst herr
        obtain ⟨h, -, hp⟩ := componentsLoop_error_src (claimTokens t) false _ hloop
        exact parse_component_ne_invalidFormat h hp
      · rw [hloop] at herr
        exact absurd herr (by simp [Except.map])
    · intro hcond
      rcases (condFormat_iff t).mp hcond with hg | hall
      · unfold ChunkName.try_from_str
        rw [if_pos hg]
      · unfold ChunkName.try_from_str
        by_cases hg : (splitOn dotChar t).length < 2 ∨ (splitOn dotChar t).length % 2 ≠ 0
        · rw [if_pos hg]
        · rw [if_neg hg, if_pos (by simpa using hall)]
  · intro hcond
    constructor
    · intro hdrop
      have hall : ∀ h ∈ claimTokens t, (ChunkName.parse_component h).isOk = true :=
        List.dropWhile_eq_nil_iff.mp hdrop
      obtain ⟨comps, hloop⟩ := componentsLoop_ok_of_all (claimTokens t) false hall
      refine ⟨⟨comps⟩, ?_⟩
      rw [try_from_str_eq_loop hcond, hloop]
      rfl
    · intro h rest e hdrop herr
      rw [try_from_str_eq_loop hcond,
        componentsLoop_error_of_firstBad (claimTokens t) false h rest e hdrop herr]
      rfl

/-- Witness for the amended claim C8 at `patch_x.pak.bogus.pak`: the format
check passes, the first failing leading token is `patch_x`, and the parser
returns its numeric-id error. -/
theorem claim_parse_errors_witness :
    ¬ condFormat ("patch_x.pak.bogus.pak".toList) ∧
    ChunkName.try_from_str ("patch_x.pak.bogus.pak".toList) =
      .error .invalidNumericId :=
  ⟨by decide,
    ((claim_parse_errors ("patch_x.pak.bogus.pak".toList)).2.1 (by decide)).2
      ("patch_x".toList) ["bogus".toList] .invalidNumericId (by decide) (by decide)⟩
